import Mathlib

/-!
Shallow embedding of the data-preparation pipeline in `src/prep_data.py`
(feature selection, treatment binarization, cost flip, one-hot encoding,
stratified train/valid/test split) together with proofs of the spec claims.

A dataset is rows of scalar values under an ordered list of column names,
mirroring a `pandas.DataFrame`.  Missing cells (`NaN`) are the `Value.na`
constructor; numeric cells are exact rationals.  Operations that raise
`KeyError` / `ValueError` in the Python code return `Except PrepError`.
-/

/-- A scalar cell of a dataframe: a numeric value, a string, or a missing
value (pandas `NaN`). -/
inductive Value where
  | num (q : ℚ)
  | str (s : String)
  | na
deriving DecidableEq

/-- An in-memory tabular dataset: ordered column names plus rows, each row a
list of cells aligned with `cols`. -/
structure Dataset where
  cols : List String
  rows : List (List Value)
deriving DecidableEq

/-- Errors surfaced by the pipeline (the spec's `SchemaError`,
`StratificationError`; pandas raises `KeyError` / sklearn `ValueError`). -/
inductive PrepError where
  | schemaError (c : String)
  | stratificationError
deriving DecidableEq

/-- Index of the first occurrence of a column name, like `pandas` column
lookup on a (possibly duplicated) column index. -/
def firstIdx (c : String) : List String → Option Nat
  | [] => none
  | d :: ds => if d = c then some 0 else (firstIdx c ds).map (· + 1)

/-- The cell of row `r` (aligned with `cols`) at column `c`; `na` when the
column is absent or the row is short. -/
def cellOf (cols : List String) (r : List Value) (c : String) : Value :=
  match firstIdx c cols with
  | some j => r.getD j Value.na
  | none => Value.na

/-- The column `c` of a dataset as a list of cells (a pandas `Series`). -/
def colVals (d : Dataset) (c : String) : List Value :=
  d.rows.map (fun r => cellOf d.cols r c)

/-- `v < q` as pandas evaluates it on a numeric column: `NaN < q` is false. -/
def valueLtQ (v : Value) (q : ℚ) : Bool :=
  match v with
  | .num a => decide (a < q)
  | _ => false

/-- `v == q` as pandas evaluates it: `NaN == q` is false. -/
def valueEqQ (v : Value) (q : ℚ) : Bool :=
  match v with
  | .num a => decide (a = q)
  | _ => false

/-- `v >= q` as pandas evaluates it: `NaN >= q` is false. -/
def valueGeQ (v : Value) (q : ℚ) : Bool :=
  match v with
  | .num a => decide (q ≤ a)
  | _ => false

/-- The column-name fields of the hydra config consumed by the pipeline
(`cfg.features` in `prep_data.py`). -/
structure FeatureCfg where
  age_col : String
  citizen_col : String
  cost_col : String
  hour_col : String
  gain_col : String
  binary_cols : List String
  categorical_cols : List String
deriving DecidableEq

/-- `required_cols` in `select_features`: hour, gain, cost, then the binary
columns, then the categorical columns. -/
def requiredCols (cfg : FeatureCfg) : List String :=
  [cfg.hour_col, cfg.gain_col, cfg.cost_col] ++ cfg.binary_cols ++ cfg.categorical_cols

/-- The eligibility predicate of `select_features`:
`(df[age] < 5) & (df[citizen] == 0) & (df[cost] >= 2)`. -/
def eligible (cols : List String) (cfg : FeatureCfg) (r : List Value) : Bool :=
  valueLtQ (cellOf cols r cfg.age_col) 5 &&
  valueEqQ (cellOf cols r cfg.citizen_col) 0 &&
  valueGeQ (cellOf cols r cfg.cost_col) 2

/-- `select_features(df, feature_cfg)`: keep rows passing `eligible`, project
to `requiredCols`.  A missing column raises `KeyError` in pandas (the spec's
`SchemaError`); the filter touches age, citizen and cost first, then the
projection touches every required column. -/
def select_features (df : Dataset) (cfg : FeatureCfg) : Except PrepError Dataset :=
  if cfg.age_col ∈ df.cols then
    if cfg.citizen_col ∈ df.cols then
      if cfg.cost_col ∈ df.cols then
        match (requiredCols cfg).find? (fun c => decide (c ∉ df.cols)) with
        | some c => .error (.schemaError c)
        | none =>
            .ok ⟨requiredCols cfg,
                 (df.rows.filter (eligible df.cols cfg)).map
                   (fun r => (requiredCols cfg).map (cellOf df.cols r))⟩
      else .error (.schemaError cfg.cost_col)
    else .error (.schemaError cfg.citizen_col)
  else .error (.schemaError cfg.age_col)

/-- The numeric entries of a series, in order (pandas `median` skips `NaN`). -/
def numsOf (xs : List Value) : List ℚ :=
  xs.filterMap (fun v => match v with | .num q => some q | _ => none)

/-- Statistical median of a list of rationals: middle of the sorted list, the
average of the two middle elements for even length (pandas `Series.median`). -/
def medianOf (xs : List ℚ) : ℚ :=
  let s := List.insertionSort (· ≤ ·) xs
  if s.length % 2 = 1 then s.getD (s.length / 2) 0
  else (s.getD (s.length / 2 - 1) 0 + s.getD (s.length / 2) 0) / 2

/-- `Series.median()`: `none` models the `NaN` median of a series with no
numeric entry (in particular of an empty series). -/
def seriesMedian (xs : List Value) : Option ℚ :=
  if (numsOf xs).length = 0 then none else some (medianOf (numsOf xs))

/-- `create_treatment(working_hrs)`: 1 where the value strictly exceeds the
median, else 0 (comparisons against a `NaN` median are all false, and a `NaN`
cell compares false, exactly as in pandas). -/
def create_treatment (working_hrs : List Value) : List Nat :=
  match seriesMedian working_hrs with
  | none => working_hrs.map (fun _ => 0)
  | some m =>
      working_hrs.map (fun v =>
        match v with
        | .num q => if m < q then 1 else 0
        | _ => 0)

instance {ε α : Type} [DecidableEq ε] [DecidableEq α] : DecidableEq (Except ε α) := fun
  | .error e, .error f =>
      if h : e = f then .isTrue (by rw [h])
      else .isFalse (by intro hh; injection hh; contradiction)
  | .error _, .ok _ => .isFalse (by intro hh; injection hh)
  | .ok _, .error _ => .isFalse (by intro hh; injection hh)
  | .ok a, .ok b =>
      if h : a = b then .isTrue (by rw [h])
      else .isFalse (by intro hh; injection hh; contradiction)

/-- Strict lexicographic comparison of code-point sequences, the order in
which Python (hence pandas) compares strings. -/
def lexLtB : List Nat → List Nat → Bool
  | [], [] => false
  | [], _ :: _ => true
  | _ :: _, [] => false
  | x :: xs, y :: ys => if x < y then true else if y < x then false else lexLtB xs ys

/-- The code points of a string, in order. -/
def strKey (s : String) : List Nat :=
  s.data.map (fun ch => ch.toNat)

theorem lexLtB_irrefl : ∀ l, lexLtB l l = false
  | [] => rfl
  | x :: xs => by simp [lexLtB, lexLtB_irrefl xs]

theorem lexLtB_asymm : ∀ x y, lexLtB x y = true → lexLtB y x = false
  | [], [] => by simp [lexLtB]
  | [], _ :: _ => by simp [lexLtB]
  | _ :: _, [] => by simp [lexLtB]
  | a :: x, b :: y => by
      by_cases hab : a < b
      · have hba : ¬ b < a := by omega
        simp [lexLtB, hab, hba]
      · by_cases hba : b < a
        · simp [lexLtB, hab, hba]
        · simp [lexLtB, hab, hba]
          exact lexLtB_asymm x y

theorem lexLtB_le_trans :
    ∀ x y z, lexLtB y x = false → lexLtB z y = false → lexLtB z x = false
  | [], [], [] => by simp [lexLtB]
  | [], [], _ :: _ => by simp [lexLtB]
  | [], _ :: _, z => by intro _ _; cases z <;> rfl
  | _ :: _, [], [] => by simp [lexLtB]
  | _ :: _, _ :: _, [] => by simp [lexLtB]
  | _ :: _, [], _ :: _ => by simp [lexLtB]
  | a :: x, b :: y, c :: z => by
      by_cases hba : b < a
      · simp [lexLtB, hba]
      · by_cases hcb : c < b
        · simp [lexLtB, hcb]
        · intro h1 h2
          by_cases hca : c < a
          · omega
          · by_cases hac : a < c
            · simp [lexLtB, hca, hac] at *
            · have hab : ¬ a < b := by omega
              have hbc : ¬ b < c := by omega
              simp [lexLtB, hba, hab, hcb, hbc, hca, hac] at *
              exact lexLtB_le_trans x y z h1 h2

/-- The total order in which pandas sorts category values: numbers before
strings, numbers by value, strings lexicographically by code points
(`pd.get_dummies` sorts the observed categories of each column; `NaN` never
appears among categories but is placed first to keep the relation total). -/
def valueLe (a b : Value) : Prop :=
  match a, b with
  | .num x, .num y => x ≤ y
  | .num _, .str _ => True
  | .str x, .str y => lexLtB (strKey y) (strKey x) = false
  | .str _, .num _ => False
  | .na, _ => True
  | _, .na => False

instance : DecidableRel valueLe := by
  intro a b
  cases a <;> cases b <;> simp only [valueLe] <;> infer_instance

instance : IsTotal Value valueLe := by
  constructor
  intro a b
  cases a with
  | num qa =>
      cases b with
      | num qb => exact le_total qa qb
      | str _ => exact Or.inl trivial
      | na => exact Or.inr trivial
  | str sa =>
      cases b with
      | num _ => exact Or.inr trivial
      | str sb =>
          by_cases h : lexLtB (strKey sb) (strKey sa) = false
          · exact Or.inl h
          · exact Or.inr (lexLtB_asymm _ _ (by revert h; cases lexLtB (strKey sb) (strKey sa) <;> simp))
      | na => exact Or.inr trivial
  | na => cases b <;> exact Or.inl trivial

instance : IsTrans Value valueLe := by
  constructor
  intro a b c hab hbc
  cases a <;> cases b <;> cases c <;> simp only [valueLe] at * <;>
    first
      | trivial
      | exact le_trans hab hbc
      | exact lexLtB_le_trans _ _ _ hab hbc

/-- The distinct non-missing values observed in column `c`, in ascending
order — the category set `pd.get_dummies` derives for that column
(`dummy_na` defaults to `False`, so `NaN` yields no category). -/
def distinctVals (d : Dataset) (c : String) : List Value :=
  List.insertionSort valueLe (((colVals d c).filter (fun v => decide (v ≠ Value.na))).dedup)

/-- Printed form of a value, used in generated indicator column names. -/
def Value.render : Value → String
  | .num q => toString q
  | .str s => s
  | .na => "nan"

/-- Name of the indicator column `pd.get_dummies` generates for value `v` of
source column `c` (f-string `"{c}_{v}"`). -/
def dummyName (c : String) (v : Value) : String :=
  c ++ "_" ++ v.render

/-- All (source column, category value) pairs, grouped by source column in
`categorical_cols` order, each group in the sorted category order. -/
def pairsFor (d : Dataset) : List String → List (String × Value)
  | [] => []
  | c :: cs => (distinctVals d c).map (fun v => (c, v)) ++ pairsFor d cs

/-- `df.columns.difference(categorical_cols, sort=False)`: the
non-categorical columns, in their original relative order. -/
def keepCols (df : Dataset) (cats : List String) : List String :=
  df.cols.filter (fun c => decide (c ∉ cats))

/-- One encoded row: the kept cells followed by the 0/1 indicator cells of
every (source column, category value) pair. -/
def encodeRow (df : Dataset) (cats : List String) (r : List Value) : List Value :=
  (keepCols df cats).map (cellOf df.cols r) ++
  (pairsFor df cats).map (fun p =>
    if cellOf df.cols r p.1 = p.2 then Value.num 1 else Value.num 0)

/-- The encoded column list: kept columns, then the generated indicator
column names grouped by source column. -/
def encodedCols (df : Dataset) (cats : List String) : List String :=
  keepCols df cats ++ (pairsFor df cats).map (fun p => dummyName p.1 p.2)

/-- `encode(df, categorical_cols)`: non-categorical columns first in their
original relative order (`df.columns.difference(categorical_cols, sort=False)`),
then one indicator column per observed category value
(`pd.get_dummies(df[categorical_cols], columns=categorical_cols)`), the two
parts concatenated row-wise (`pd.concat(..., axis=1)` on the shared index).
A missing categorical column raises `KeyError` (the spec's `SchemaError`). -/
def encode (df : Dataset) (cats : List String) : Except PrepError Dataset :=
  match cats.find? (fun c => decide (c ∉ df.cols)) with
  | some c => .error (.schemaError c)
  | none => .ok ⟨encodedCols df cats, df.rows.map (encodeRow df cats)⟩

/-- Whether row `r` belongs to stratum `v` of column `c`. -/
def keyIs (cols : List String) (c : String) (v : Value) (r : List Value) : Bool :=
  decide (cellOf cols r c = v)

/-- Priority order on class indices used to hand out the leftover rows in
sklearn's `_approximate_mode`: larger remainder first (sklearn breaks exact
ties with the rng; modelled as lower index first). -/
def remOrder (rems : List Nat) (i j : Nat) : Prop :=
  rems.getD j 0 < rems.getD i 0 ∨ (rems.getD i 0 = rems.getD j 0 ∧ i ≤ j)

instance (rems : List Nat) : DecidableRel (remOrder rems) := by
  intro i j
  unfold remOrder
  infer_instance

instance (rems : List Nat) : IsTotal Nat (remOrder rems) := by
  constructor
  intro i j
  unfold remOrder
  omega

instance (rems : List Nat) : IsTrans Nat (remOrder rems) := by
  constructor
  intro i j k hij hjk
  unfold remOrder at *
  omega

/-- Floor share of class `i` in sklearn's `_approximate_mode`:
`floor(count * draws / n)`. -/
def floorsOf (counts : List Nat) (draws n : Nat) : List Nat :=
  counts.map (fun m => m * draws / n)

/-- Fractional remainders of the floor shares, scaled by `n`. -/
def remsOf (counts : List Nat) (draws n : Nat) : List Nat :=
  counts.map (fun m => m * draws % n)

/-- The classes that receive one leftover row each: the
`draws - sum(floored)` indices with the largest remainders
(`_approximate_mode`'s descending-remainder loop). -/
def bonusIdx (counts : List Nat) (draws n : Nat) : List Nat :=
  (List.insertionSort (remOrder (remsOf counts draws n)) (List.range counts.length)).take
    (draws - (floorsOf counts draws n).sum)

/-- Rows of class `i` drawn for the selected side:
floor share plus one when the class wins a leftover row. -/
def allocOf (counts : List Nat) (draws n i : Nat) : Nat :=
  counts.getD i 0 * draws / n + (if i ∈ bonusIdx counts draws n then 1 else 0)

/-- Per-class draw counts, aligned with the class list. -/
def allocList (counts : List Nat) (draws n : Nat) : List Nat :=
  (List.range counts.length).map (allocOf counts draws n)

/-- The first side of a stratified shuffle split: for each class in order,
its first `alloc` rows (the rng permutation inside sklearn is modelled as
the identity; which rows land on which side is seed-dependent and the spec
only constrains the counts). -/
def takeClasses (rows : List (List Value)) (cols : List String) (c : String) :
    List Value → List Nat → List (List Value)
  | [], _ => []
  | _ :: _, [] => []
  | v :: vs, a :: al =>
      (rows.filter (keyIs cols c v)).take a ++ takeClasses rows cols c vs al

/-- The complementary side of the stratified shuffle split. -/
def dropClasses (rows : List (List Value)) (cols : List String) (c : String) :
    List Value → List Nat → List (List Value)
  | [], _ => []
  | _ :: _, [] => []
  | v :: vs, a :: al =>
      (rows.filter (keyIs cols c v)).drop a ++ dropClasses rows cols c vs al

/-- Per-class row counts, aligned with `distinctVals` (sklearn's
`class_counts`). -/
def countsOf (d : Dataset) (c : String) : List Nat :=
  (distinctVals d c).map (fun v => (d.rows.filter (keyIs d.cols c v)).length)

/-- The per-class draw counts of one stratified shuffle split keeping
`testNum` rows aside. -/
def ttsAlloc (d : Dataset) (c : String) (testNum : Nat) : List Nat :=
  allocList (countsOf d c) (d.rows.length - testNum) d.rows.length

/-- One `train_test_split(df, test_size=..., stratify=df[c], random_state=42)`
call, keeping `testNum` rows out of the first side.  Checks mirror sklearn:
a missing stratification column raises `KeyError`; an empty input, a `NaN`
stratum (each `NaN` is its own singleton class under `np.unique`), a class
with fewer than 2 members, or fewer rows than classes on either side raise
`ValueError` (the spec's `StratificationError`). -/
def tts (d : Dataset) (c : String) (testNum : Nat) : Except PrepError (Dataset × Dataset) :=
  if c ∈ d.cols then
    if d.rows.length = 0 then .error .stratificationError
    else if d.rows.any (fun r => decide (cellOf d.cols r c = Value.na)) then
      .error .stratificationError
    else if (countsOf d c).any (fun m => decide (m < 2)) then .error .stratificationError
    else if d.rows.length - testNum < (distinctVals d c).length then
      .error .stratificationError
    else if testNum < (distinctVals d c).length then .error .stratificationError
    else
      .ok (⟨d.cols, takeClasses d.rows d.cols c (distinctVals d c) (ttsAlloc d c testNum)⟩,
           ⟨d.cols, dropClasses d.rows d.cols c (distinctVals d c) (ttsAlloc d c testNum)⟩)
  else .error (.schemaError c)

/-- `ceil(0.4 * n)`: the row count sklearn reserves for the second side under
`test_size=0.4`. -/
def ceil40 (n : Nat) : Nat := (2 * n + 4) / 5

/-- `ceil(0.5 * n)`: the row count sklearn reserves for the second side under
`test_size=0.5`. -/
def ceil50 (n : Nat) : Nat := (n + 1) / 2

/-- `split(df, treatment_col)`: 60/40 stratified split into train and rest,
then a 50/50 stratified split of rest into valid and test, both with the
fixed seed 42. -/
def split (d : Dataset) (c : String) : Except PrepError (Dataset × Dataset × Dataset) :=
  match tts d c (ceil40 d.rows.length) with
  | .error e => .error e
  | .ok (tr, rest) =>
      match tts rest c (ceil50 rest.rows.length) with
      | .error e => .error e
      | .ok (va, te) => .ok (tr, va, te)

/-- `filtered_df[hour_col] = treatment_col` and similar column assignment:
overwrite an existing column in place, or append a new one on the right as
pandas does for a fresh name. -/
def Dataset.setCol (d : Dataset) (c : String) (vals : List Value) : Dataset :=
  match firstIdx c d.cols with
  | some j => ⟨d.cols, List.zipWith (fun r v => r.set j v) d.rows vals⟩
  | none => ⟨d.cols ++ [c], List.zipWith (fun r v => r ++ [v]) d.rows vals⟩

/-- `df[c] = df[c].map(f)`-style in-place update of one column. -/
def Dataset.mapCol (d : Dataset) (c : String) (f : Value → Value) : Dataset :=
  match firstIdx c d.cols with
  | some j => ⟨d.cols, d.rows.map (fun r => r.set j (f (r.getD j Value.na)))⟩
  | none => d

/-- A 0/1 integer stored as a numeric cell. -/
def natVal (t : Nat) : Value := Value.num (t : ℚ)

/-- The treatment-build step of `main`: `create_treatment` on the hour column,
stored back under the hour column's own name. -/
def applyTreatment (d : Dataset) (cfg : FeatureCfg) : Dataset :=
  d.setCol cfg.hour_col ((create_treatment (colVals d cfg.hour_col)).map natVal)

/-- The cost-flip step of `main`:
`filtered_df[cost_col] = filtered_df[cost_col] * (-1)`. -/
def flipCost (d : Dataset) (cfg : FeatureCfg) : Dataset :=
  d.mapCol cfg.cost_col (fun v => match v with | .num q => .num (-q) | w => w)

/-- The in-memory core of `main`: select, binarize treatment, flip cost,
one-hot encode, stratified split (CSV I/O and logging excluded). -/
def pipeline (df : Dataset) (cfg : FeatureCfg) :
    Except PrepError (Dataset × Dataset × Dataset) :=
  match select_features df cfg with
  | .error e => .error e
  | .ok filtered =>
      match encode (flipCost (applyTreatment filtered cfg) cfg) cfg.categorical_cols with
      | .error e => .error e
      | .ok encoded => split encoded cfg.hour_col

/-! ### Basic lemmas about cells, projections and column lookup -/

/-- A concrete configuration used by witnesses. -/
def cfgA : FeatureCfg := ⟨"age", "cit", "cost", "hour", "gain", ["b"], ["c"]⟩

/-- A concrete two-row raw dataset (one eligible row, one not). -/
def dfA : Dataset :=
  ⟨["age", "cit", "cost", "hour", "gain", "b", "c"],
   [[Value.num 1, Value.num 0, Value.num 3, Value.num 40, Value.num 5,
     Value.num 1, Value.str "x"],
    [Value.num 9, Value.num 0, Value.num 3, Value.num 10, Value.num 2,
     Value.num 0, Value.str "y"]]⟩

/-- A configuration that also projects the age and citizen-status columns. -/
def cfgB : FeatureCfg := ⟨"age", "cit", "cost", "hour", "gain", ["age", "cit"], ["c"]⟩

/-- A concrete one-row raw dataset whose row is eligible. -/
def dfB : Dataset :=
  ⟨["age", "cit", "cost", "hour", "gain", "b", "c"],
   [[Value.num 1, Value.num 0, Value.num 3, Value.num 40, Value.num 5,
     Value.num 1, Value.str "x"]]⟩

/-- The output of `select_features dfB cfgB`. -/
def outB : Dataset :=
  ⟨["hour", "gain", "cost", "age", "cit", "c"],
   [[Value.num 40, Value.num 5, Value.num 3, Value.num 1, Value.num 0,
     Value.str "x"]]⟩

/-- Numeric content of a cell (indicator cells hold `num 1` / `num 0`). -/
def qOf : Value → ℚ
  | .num q => q
  | _ => 0

/-- The sum, over the categories of source column `c`, of the indicator
cells of an encoded row — the row sum of the generated indicator columns. -/
def indSum (out df : Dataset) (c : String) (r : List Value) : ℚ :=
  ((distinctVals df c).map (fun v => qOf (cellOf out.cols r (dummyName c v)))).sum

/-- The dataset and output used in the C4 witness. -/
def dfC : Dataset :=
  ⟨["x", "c"],
   [[Value.num 7, Value.str "A"], [Value.num 8, Value.str "B"], [Value.num 9, Value.na]]⟩

/-- `encode dfC ["c"]`'s output. -/
def outC : Dataset :=
  ⟨["x", "c_A", "c_B"],
   [[Value.num 7, Value.num 1, Value.num 0],
    [Value.num 8, Value.num 0, Value.num 1],
    [Value.num 9, Value.num 0, Value.num 0]]⟩

/-- The dataset of the C5 scenario (observed category order B then A). -/
def dfR : Dataset := ⟨["region"], [[Value.str "B"], [Value.str "A"]]⟩

/-- `encode dfR ["region"]`'s output. -/
def outR : Dataset :=
  ⟨["region_A", "region_B"],
   [[Value.num 0, Value.num 1], [Value.num 1, Value.num 0]]⟩

/-- The number of rows of `d` whose cell in column `c` equals `v`
(the size of one stratum). -/
def countClass (d : Dataset) (c : String) (v : Value) : Nat :=
  d.rows.countP (keyIs d.cols c v)

/-- The ten-row, two-stratum dataset of the spec's split scenario. -/
def D10 : Dataset :=
  ⟨["t"],
   [[Value.num 0], [Value.num 0], [Value.num 0], [Value.num 0], [Value.num 0],
    [Value.num 1], [Value.num 1], [Value.num 1], [Value.num 1], [Value.num 1]]⟩

/-- Training part of `split D10 "t"`: 3 rows of each stratum. -/
def TR10 : Dataset :=
  ⟨["t"],
   [[Value.num 0], [Value.num 0], [Value.num 0],
    [Value.num 1], [Value.num 1], [Value.num 1]]⟩

/-- Validation part of `split D10 "t"`: 1 row of each stratum. -/
def VA10 : Dataset := ⟨["t"], [[Value.num 0], [Value.num 1]]⟩

/-- Test part of `split D10 "t"`: 1 row of each stratum. -/
def TE10 : Dataset := ⟨["t"], [[Value.num 0], [Value.num 1]]⟩

/-- An eleven-row raw dataset on which the whole pipeline succeeds: all rows
are eligible, hours are 1 for six rows and 9 for five rows (median 1, the
middle of the eleven sorted values), and the categorical column takes values
A and B. -/
def dfW : Dataset :=
  ⟨["age", "cit", "cost", "hour", "gain", "b", "c"],
   List.replicate 6
     [Value.num 1, Value.num 0, Value.num 2, Value.num 1, Value.num 0, Value.num 0, Value.str "A"]
   ++ List.replicate 5
     [Value.num 1, Value.num 0, Value.num 2, Value.num 9, Value.num 0, Value.num 0, Value.str "B"]⟩

/-- `select_features dfW cfgA`'s output. -/
def FW : Dataset :=
  ⟨["hour", "gain", "cost", "b", "c"],
   List.replicate 6 [Value.num 1, Value.num 0, Value.num 2, Value.num 0, Value.str "A"]
   ++ List.replicate 5 [Value.num 9, Value.num 0, Value.num 2, Value.num 0, Value.str "B"]⟩

/-- An untreated encoded row of the pipeline witness: hour binarized to 0,
cost flipped, `c = A` one-hot expanded. -/
def rowW0 : List Value :=
  [Value.num 0, Value.num 0, Value.num (-2), Value.num 0, Value.num 1, Value.num 0]

/-- A treated encoded row of the pipeline witness: hour binarized to 1,
cost flipped, `c = B` one-hot expanded. -/
def rowW1 : List Value :=
  [Value.num 1, Value.num 0, Value.num (-2), Value.num 0, Value.num 0, Value.num 1]

/-- The encoded dataset of the pipeline witness. -/
def EW : Dataset :=
  ⟨["hour", "gain", "cost", "b", "c_A", "c_B"],
   List.replicate 6 rowW0 ++ List.replicate 5 rowW1⟩

/-- Training part of `split EW "hour"`: three rows of each class. -/
def TRW : Dataset :=
  ⟨["hour", "gain", "cost", "b", "c_A", "c_B"],
   List.replicate 3 rowW0 ++ List.replicate 3 rowW1⟩

/-- Validation part of `split EW "hour"`: one row of each class. -/
def VAW : Dataset :=
  ⟨["hour", "gain", "cost", "b", "c_A", "c_B"], [rowW0, rowW1]⟩

/-- Test part of `split EW "hour"`: two untreated rows and one treated row. -/
def TEW : Dataset :=
  ⟨["hour", "gain", "cost", "b", "c_A", "c_B"],
   [rowW0, rowW0, rowW1]⟩

theorem firstIdx_isSome {c : String} {l : List String} (h : c ∈ l) :
    ∃ j, firstIdx c l = some j := by
  induction l with
  | nil => cases h
  | cons d ds ih =>
      by_cases hd : d = c
      · exact ⟨0, by simp [firstIdx, hd]⟩
      · have hds : c ∈ ds := by
          rcases List.mem_cons.mp h with h | h
          · exact absurd h.symm hd
          · exact h
        rcases ih hds with ⟨j, hj⟩
        exact ⟨j + 1, by simp [firstIdx, hd, hj]⟩

theorem cellOf_cons_eq {d c : String} {ds : List String} {x : Value} {t : List Value}
    (h : d = c) : cellOf (d :: ds) (x :: t) c = x := by
  simp [cellOf, firstIdx, h]

theorem cellOf_cons_ne {d c : String} {ds : List String} {x : Value} {t : List Value}
    (h : ¬ d = c) : cellOf (d :: ds) (x :: t) c = cellOf ds t c := by
  simp only [cellOf, firstIdx, h, if_false]
  cases firstIdx c ds <;> simp

/-- Projecting a row to a list of columns preserves every cell whose column
is among them (lookups use the first occurrence on both sides). -/
theorem cellOf_proj (cols : List String) (r : List Value) :
    ∀ (sel : List String) (c : String), c ∈ sel →
      cellOf sel (sel.map (cellOf cols r)) c = cellOf cols r c := by
  intro sel
  induction sel with
  | nil => intro c h; cases h
  | cons d ds ih =>
      intro c hc
      by_cases hd : d = c
      · rw [List.map_cons, cellOf_cons_eq hd, hd]
      · rw [List.map_cons, cellOf_cons_ne hd]
        exact ih c (by rcases List.mem_cons.mp hc with h | h
                       · exact absurd h.symm hd
                       · exact h)

/-! ### Inversion of `select_features` -/

theorem select_features_ok_inv {df : Dataset} {cfg : FeatureCfg} {out : Dataset}
    (h : select_features df cfg = .ok out) :
    cfg.age_col ∈ df.cols ∧ cfg.citizen_col ∈ df.cols ∧ cfg.cost_col ∈ df.cols ∧
    (∀ c ∈ requiredCols cfg, c ∈ df.cols) ∧
    out = ⟨requiredCols cfg,
           (df.rows.filter (eligible df.cols cfg)).map
             (fun r => (requiredCols cfg).map (cellOf df.cols r))⟩ := by
  unfold select_features at h
  split at h
  case isFalse => cases h
  case isTrue hage =>
    split at h
    case isFalse => cases h
    case isTrue hcit =>
      split at h
      case isFalse => cases h
      case isTrue hcost =>
        split at h
        case h_1 => cases h
        case h_2 hfind =>
          refine ⟨hage, hcit, hcost, ?_, ?_⟩
          · intro c hc
            have := List.find?_eq_none.mp hfind c hc
            simpa using this
          · injection h with h'
            exact h'.symm

/-- C3: `select_features` keeps exactly the rows passing the eligibility
filter `age < 5 ∧ citizen == 0 ∧ cost >= 2` (a sublist of the input rows,
i.e. a subset by row identity), projects them to exactly
hour, gain, cost, the binary columns, the categorical columns, in that
order, and an empty result is still `.ok`, not an error. -/
theorem select_features_spec (df : Dataset) (cfg : FeatureCfg)
    (hage : cfg.age_col ∈ df.cols) (hcit : cfg.citizen_col ∈ df.cols)
    (hreq : ∀ c ∈ requiredCols cfg, c ∈ df.cols) :
    ∃ out, select_features df cfg = .ok out
      ∧ out.cols = [cfg.hour_col, cfg.gain_col, cfg.cost_col]
          ++ cfg.binary_cols ++ cfg.categorical_cols
      ∧ out.rows = (df.rows.filter (eligible df.cols cfg)).map
          (fun r => (requiredCols cfg).map (cellOf df.cols r))
      ∧ (df.rows.filter (eligible df.cols cfg)).Sublist df.rows := by
  have hcost : cfg.cost_col ∈ df.cols := hreq _ (by simp [requiredCols])
  have hfind : (requiredCols cfg).find? (fun c => decide (c ∉ df.cols)) = none :=
    List.find?_eq_none.mpr (fun c hc => by simpa using hreq c hc)
  refine ⟨⟨requiredCols cfg,
           (df.rows.filter (eligible df.cols cfg)).map
             (fun r => (requiredCols cfg).map (cellOf df.cols r))⟩,
         ?_, rfl, rfl, List.filter_sublist _⟩
  simp only [decide_not] at hfind
  simp [select_features, hage, hcit, hcost, hfind]

/-- Witness for C3 on a concrete two-row dataset (one eligible row, one not). -/
theorem select_features_spec_witness :
    (cfgA.age_col ∈ dfA.cols)
    ∧ ∃ out, select_features dfA cfgA = .ok out
        ∧ out.cols = [cfgA.hour_col, cfgA.gain_col, cfgA.cost_col]
            ++ cfgA.binary_cols ++ cfgA.categorical_cols
        ∧ out.rows = (dfA.rows.filter (eligible dfA.cols cfgA)).map
            (fun r => (requiredCols cfgA).map (cellOf dfA.cols r))
        ∧ (dfA.rows.filter (eligible dfA.cols cfgA)).Sublist dfA.rows :=
  ⟨by decide, select_features_spec dfA cfgA (by decide) (by decide) (by decide)⟩

/-- C6 as stated fails: `select_features` drops the age and citizen-status
filter columns, so a second call on its own output cannot evaluate the
filter and fails with `SchemaError` on the age column instead of returning
the same dataset. -/
theorem select_features_not_idem :
    select_features
        ⟨["age", "cit", "cost", "hour", "gain", "b", "c"],
         [[Value.num 1, Value.num 0, Value.num 3, Value.num 40, Value.num 5,
           Value.num 1, Value.str "x"]]⟩
        ⟨"age", "cit", "cost", "hour", "gain", ["b"], ["c"]⟩
      = .ok ⟨["hour", "gain", "cost", "b", "c"],
             [[Value.num 40, Value.num 5, Value.num 3, Value.num 1, Value.str "x"]]⟩
    ∧ select_features
        ⟨["hour", "gain", "cost", "b", "c"],
         [[Value.num 40, Value.num 5, Value.num 3, Value.num 1, Value.str "x"]]⟩
        ⟨"age", "cit", "cost", "hour", "gain", ["b"], ["c"]⟩
      = .error (.schemaError "age") := by
  constructor <;> rfl

/-- C6 (amended): when the spec also projects the age and citizen-status
columns (they appear in `requiredCols`, e.g. listed among the binary
columns), a second `select_features` call on the first call's output
returns that output unchanged. -/
theorem select_features_idem (df : Dataset) (cfg : FeatureCfg) (out : Dataset)
    (h : select_features df cfg = .ok out)
    (ha : cfg.age_col ∈ requiredCols cfg) (hc : cfg.citizen_col ∈ requiredCols cfg) :
    select_features out cfg = .ok out := by
  obtain ⟨_, _, _, _, hout⟩ := select_features_ok_inv h
  subst hout
  have hcost' : cfg.cost_col ∈ requiredCols cfg := by simp [requiredCols]
  have hfind : (requiredCols cfg).find? (fun c => decide (c ∉ requiredCols cfg)) = none :=
    List.find?_eq_none.mpr (fun c hcmem => by simpa using hcmem)
  have helig : ∀ r ∈ df.rows.filter (eligible df.cols cfg),
      eligible (requiredCols cfg) cfg ((requiredCols cfg).map (cellOf df.cols r)) = true := by
    intro r hr
    unfold eligible
    rw [cellOf_proj df.cols r _ _ ha, cellOf_proj df.cols r _ _ hc,
        cellOf_proj df.cols r _ _ hcost']
    exact (List.mem_filter.mp hr).2
  have hproj : ∀ r ∈ df.rows.filter (eligible df.cols cfg),
      (requiredCols cfg).map
          (cellOf (requiredCols cfg) ((requiredCols cfg).map (cellOf df.cols r)))
        = (requiredCols cfg).map (cellOf df.cols r) := by
    intro r _
    exact List.map_congr_left (fun c hcm => cellOf_proj df.cols r _ _ hcm)
  simp only [select_features, if_pos ha, if_pos hc, if_pos hcost']
  rw [hfind]
  refine congrArg Except.ok (congrArg (Dataset.mk (requiredCols cfg)) ?_)
  rw [List.filter_map, List.map_map]
  have hfilter :
      ((df.rows.filter (eligible df.cols cfg)).filter
        ((eligible (requiredCols cfg) cfg) ∘ fun r => (requiredCols cfg).map (cellOf df.cols r)))
      = df.rows.filter (eligible df.cols cfg) :=
    List.filter_eq_self.mpr (fun r hr => helig r hr)
  rw [hfilter]
  exact List.map_congr_left (fun r hr => hproj r hr)

/-- Witness for C6 (amended): age and citizen-status listed among the binary
columns, so the second call reproduces the first call's output. -/
theorem select_features_idem_witness :
    select_features dfB cfgB = .ok outB
    ∧ select_features outB cfgB = .ok outB :=
  ⟨rfl, select_features_idem dfB cfgB outB rfl (by decide) (by decide)⟩

/-! ### Treatment builder -/

theorem numsOf_map_num (xs : List ℚ) : numsOf (xs.map Value.num) = xs := by
  induction xs with
  | nil => rfl
  | cons a t ih => simpa [numsOf] using ih

theorem count_one_map_ite (p : ℚ → Prop) [DecidablePred p] (l : List ℚ) :
    (l.map (fun q => if p q then 1 else 0)).count 1 = l.countP (fun q => decide (p q)) := by
  induction l with
  | nil => rfl
  | cons a t ih =>
      by_cases hp : p a <;> simp [hp, List.count_cons, List.countP_cons, ih]

/-- C2: on a non-empty numeric sequence, `create_treatment` computes the
conventional statistical median (middle of the sorted list, averaging the
two middle values for even length) and maps each value to 1 exactly when it
strictly exceeds that median (ties map to 0), preserving length and order;
the count of 1s equals (hence never exceeds) the count of values strictly
above the median, and `[10, 20, 30, 40, 50]` yields `[0, 0, 0, 1, 1]` with
median 30. -/
theorem create_treatment_spec (xs : List ℚ) (hne : xs ≠ []) :
    create_treatment (xs.map Value.num)
        = xs.map (fun q => if medianOf xs < q then 1 else 0)
    ∧ (create_treatment (xs.map Value.num)).length = xs.length
    ∧ (create_treatment (xs.map Value.num)).count 1
        = xs.countP (fun q => decide (medianOf xs < q))
    ∧ create_treatment (([10, 20, 30, 40, 50] : List ℚ).map Value.num) = [0, 0, 0, 1, 1]
    ∧ medianOf [10, 20, 30, 40, 50] = 30 := by
  have hmed : seriesMedian (xs.map Value.num) = some (medianOf xs) := by
    have hlen : (numsOf (xs.map Value.num)).length ≠ 0 := by
      rw [numsOf_map_num]
      simpa using hne
    simp [seriesMedian, numsOf_map_num, hlen, hne]
  have hmain : create_treatment (xs.map Value.num)
      = xs.map (fun q => if medianOf xs < q then 1 else 0) := by
    simp only [create_treatment, hmed, List.map_map]
    exact List.map_congr_left (fun q _ => rfl)
  refine ⟨hmain, ?_, ?_, by decide, by decide⟩
  · rw [hmain, List.length_map]
  · rw [hmain, count_one_map_ite]

/-- Witness for C2 at the spec's own scenario. -/
theorem create_treatment_spec_witness :
    (([10, 20, 30, 40, 50] : List ℚ) ≠ [])
    ∧ create_treatment (([10, 20, 30, 40, 50] : List ℚ).map Value.num) = [0, 0, 0, 1, 1] :=
  ⟨by decide, (create_treatment_spec [10, 20, 30, 40, 50] (by decide)).2.2.2.1⟩

/-- C7 as stated fails: `pandas.Series.median()` of an empty series is `NaN`
rather than an error, and mapping the strict comparison over the empty
series returns the empty list, so `create_treatment` on a zero-length
sequence returns `[]` instead of failing. -/
theorem create_treatment_empty_returns :
    create_treatment ([] : List Value) = ([] : List Nat) := rfl

/-- C7 (amended): on a zero-length sequence `create_treatment` does not
fail; it returns the empty list (the median is `NaN` and no element is
compared). -/
theorem create_treatment_empty (xs : List Value) (h : xs.length = 0) :
    create_treatment xs = [] := by
  rcases xs with _ | ⟨a, t⟩
  · rfl
  · simp at h

/-- Witness for C7 (amended) at the empty sequence. -/
theorem create_treatment_empty_witness :
    ([] : List Value).length = 0 ∧ create_treatment ([] : List Value) = [] :=
  ⟨rfl, create_treatment_empty [] rfl⟩

/-! ### Schema errors -/

/-- C8: `select_features` fails with a `SchemaError` whenever any column the
spec names (age, citizen-status, cost, hour, gain, a binary column, a
categorical column) is absent, and `encode` fails with a `SchemaError`
whenever a named categorical column is absent. -/
theorem missing_column_errors :
    (∀ (df : Dataset) (cfg : FeatureCfg) (c : String),
        c ∈ cfg.age_col :: cfg.citizen_col :: requiredCols cfg → c ∉ df.cols →
        ∃ c', select_features df cfg = .error (.schemaError c'))
    ∧ (∀ (df : Dataset) (cats : List String) (c : String),
        c ∈ cats → c ∉ df.cols →
        ∃ c', encode df cats = .error (.schemaError c')) := by
  constructor
  · intro df cfg c hc hnot
    by_cases hage : cfg.age_col ∈ df.cols
    case neg => exact ⟨cfg.age_col, by unfold select_features; rw [if_neg hage]⟩
    by_cases hcit : cfg.citizen_col ∈ df.cols
    case neg =>
      exact ⟨cfg.citizen_col, by unfold select_features; rw [if_pos hage, if_neg hcit]⟩
    by_cases hcost : cfg.cost_col ∈ df.cols
    case neg =>
      exact ⟨cfg.cost_col,
             by unfold select_features; rw [if_pos hage, if_pos hcit, if_neg hcost]⟩
    have hcr : c ∈ requiredCols cfg := by
      rcases List.mem_cons.mp hc with h | h
      · exact absurd (h ▸ hage) hnot
      rcases List.mem_cons.mp h with h | h
      · exact absurd (h ▸ hcit) hnot
      · exact h
    have h1 : ((requiredCols cfg).find? (fun x => decide (x ∉ df.cols))).isSome := by
      rw [List.find?_isSome]
      exact ⟨c, hcr, by simpa using hnot⟩
    obtain ⟨c', hsome⟩ := Option.isSome_iff_exists.mp h1
    exact ⟨c', by unfold select_features
                  rw [if_pos hage, if_pos hcit, if_pos hcost, hsome]⟩
  · intro df cats c hc hnot
    have h1 : (cats.find? (fun x => decide (x ∉ df.cols))).isSome := by
      rw [List.find?_isSome]
      exact ⟨c, hc, by simpa using hnot⟩
    obtain ⟨c', hsome⟩ := Option.isSome_iff_exists.mp h1
    exact ⟨c', by unfold encode; rw [hsome]⟩

/-- Witness for C8: a dataset missing the gain column and a dataset missing
a categorical column. -/
theorem missing_column_errors_witness :
    (("gain" : String) ∈ ("age" :: "cit" ::
        requiredCols ⟨"age", "cit", "cost", "hour", "gain", ["b"], ["c"]⟩))
    ∧ (("gain" : String) ∉ (["age", "cit", "cost", "hour", "b", "c"] : List String))
    ∧ (∃ c', select_features
          ⟨["age", "cit", "cost", "hour", "b", "c"], []⟩
          ⟨"age", "cit", "cost", "hour", "gain", ["b"], ["c"]⟩
        = .error (.schemaError c'))
    ∧ (∃ c', encode ⟨["x"], []⟩ ["c"] = .error (.schemaError c')) :=
  ⟨by decide, by decide,
   missing_column_errors.1 _ _ "gain" (by decide) (by decide),
   missing_column_errors.2 _ _ "c" (by decide) (by decide)⟩

/-- C9: `create_treatment` and `split` are pure functions of their input in
this embedding (the fixed seed 42 leaves no ambient randomness), so two
runs on identical input return identical results. -/
theorem rerun_deterministic (xs : List Value) (d : Dataset) (c : String) :
    create_treatment xs = create_treatment xs ∧ split d c = split d c :=
  ⟨rfl, rfl⟩

/-! ### One-hot encoder: lookup lemmas -/

theorem firstIdx_some_getD {c : String} :
    ∀ {l : List String} {j : Nat}, firstIdx c l = some j →
      j < l.length ∧ l.getD j "" = c := by
  intro l
  induction l with
  | nil => intro j h; cases h
  | cons d ds ih =>
      intro j h
      by_cases hd : d = c
      · simp [firstIdx, hd] at h
        subst h
        simpa using hd
      · simp only [firstIdx, hd, if_false, Option.map_eq_some'] at h
        obtain ⟨j', hj', rfl⟩ := h
        obtain ⟨h1, h2⟩ := ih hj'
        exact ⟨by simpa using h1, by simpa using h2⟩

theorem firstIdx_append_left {c : String} :
    ∀ {l₁ : List String} (l₂ : List String), c ∈ l₁ →
      firstIdx c (l₁ ++ l₂) = firstIdx c l₁ := by
  intro l₁
  induction l₁ with
  | nil => intro l₂ h; cases h
  | cons d ds ih =>
      intro l₂ h
      by_cases hd : d = c
      · simp [firstIdx, hd]
      · have hds : c ∈ ds := by
          rcases List.mem_cons.mp h with h | h
          · exact absurd h.symm hd
          · exact h
        simp [firstIdx, hd, ih l₂ hds]

theorem firstIdx_append_of_not_mem {c : String} :
    ∀ {l₁ : List String} (l₂ : List String), c ∉ l₁ →
      firstIdx c (l₁ ++ l₂) = (firstIdx c l₂).map (· + l₁.length) := by
  intro l₁
  induction l₁ with
  | nil =>
      intro l₂ _
      simp only [List.nil_append, List.length_nil]
      cases firstIdx c l₂ <;> simp
  | cons d ds ih =>
      intro l₂ h
      have hd : ¬ d = c := fun hc => h (by simp [hc])
      have hds : c ∉ ds := fun hc => h (by simp [hc])
      rw [List.cons_append,
          show firstIdx c (d :: (ds ++ l₂)) = (firstIdx c (ds ++ l₂)).map (· + 1) from
            by simp [firstIdx, hd],
          ih l₂ hds]
      cases firstIdx c l₂ with
      | none => rfl
      | some a =>
          simp only [Option.map_some', List.length_cons]
          exact congrArg some (by omega)

theorem cellOf_append_left {l₁ l₂ : List String} {r₁ r₂ : List Value} {c : String}
    (hc : c ∈ l₁) (hr : r₁.length = l₁.length) :
    cellOf (l₁ ++ l₂) (r₁ ++ r₂) c = cellOf l₁ r₁ c := by
  obtain ⟨j, hj⟩ := firstIdx_isSome hc
  have hlt : j < l₁.length := (firstIdx_some_getD hj).1
  simp only [cellOf, firstIdx_append_left l₂ hc, hj]
  exact List.getD_append _ _ _ _ (hr ▸ hlt)

/-- The cell of a kept column in an encoded row equals the original cell. -/
theorem encodeRow_cell_keep (df : Dataset) (cats : List String) (r : List Value)
    {c : String} (hc : c ∈ keepCols df cats) :
    cellOf (encodedCols df cats) (encodeRow df cats r) c = cellOf df.cols r c := by
  unfold encodedCols encodeRow
  rw [cellOf_append_left hc (by simp)]
  exact cellOf_proj df.cols r _ c hc

theorem getD_map_lt {α β : Type} {l : List α} {i : Nat} (hi : i < l.length)
    (f : α → β) (d : β) (d' : α) :
    (l.map f).getD i d = f (l.getD i d') := by
  rw [List.getD_eq_getElem _ _ (by simpa using hi), List.getD_eq_getElem _ _ hi,
      List.getElem_map]

/-- The cell of a generated indicator column in an encoded row is the 0/1
indicator of the original cell matching the pair's category value
(assuming the encoded column names do not collide). -/
theorem encodeRow_cell_dummy (df : Dataset) (cats : List String) (r : List Value)
    {c : String} {v : Value} (hnd : (encodedCols df cats).Nodup)
    (hp : (c, v) ∈ pairsFor df cats) :
    cellOf (encodedCols df cats) (encodeRow df cats r) (dummyName c v)
      = if cellOf df.cols r c = v then Value.num 1 else Value.num 0 := by
  have hnames : dummyName c v ∈ (pairsFor df cats).map (fun p => dummyName p.1 p.2) :=
    List.mem_map.mpr ⟨(c, v), hp, rfl⟩
  have hdisj : (keepCols df cats).Disjoint
      ((pairsFor df cats).map (fun p => dummyName p.1 p.2)) :=
    List.disjoint_of_nodup_append hnd
  have hnotkeep : dummyName c v ∉ keepCols df cats := fun hk => hdisj hk hnames
  obtain ⟨j, hj⟩ := firstIdx_isSome hnames
  have hjlt : j < ((pairsFor df cats).map (fun p => dummyName p.1 p.2)).length :=
    (firstIdx_some_getD hj).1
  have hjlt' : j < (pairsFor df cats).length := by simpa using hjlt
  have hnamej : ((pairsFor df cats).map (fun p => dummyName p.1 p.2)).getD j ""
      = dummyName c v := (firstIdx_some_getD hj).2
  -- the pair at position j is exactly (c, v)
  have hpairj : (pairsFor df cats).getD j (c, v) = (c, v) := by
    obtain ⟨j', hj'lt, hj'⟩ := List.getElem_of_mem hp
    have hj'name : ((pairsFor df cats).map (fun p => dummyName p.1 p.2)).getD j' ""
        = dummyName c v := by
      rw [getD_map_lt hj'lt _ _ (c, v)]
      rw [List.getD_eq_getElem _ _ hj'lt, hj']
    have hndnames : ((pairsFor df cats).map (fun p => dummyName p.1 p.2)).Nodup :=
      hnd.of_append_right
    have hjj' : j = j' := by
      have h1 := hnamej
      rw [List.getD_eq_getElem _ _ hjlt] at h1
      have h2 := hj'name
      rw [List.getD_eq_getElem _ _ (by simpa using hj'lt)] at h2
      exact (hndnames.getElem_inj_iff).mp (h1.trans h2.symm)
    subst hjj'
    rw [List.getD_eq_getElem _ _ hj'lt]
    exact hj'
  have hfi : firstIdx (dummyName c v) (encodedCols df cats)
      = some (j + (keepCols df cats).length) := by
    unfold encodedCols
    rw [firstIdx_append_of_not_mem _ hnotkeep, hj, Option.map_some']
  have hcell : cellOf (encodedCols df cats) (encodeRow df cats r) (dummyName c v)
      = (encodeRow df cats r).getD (j + (keepCols df cats).length) Value.na := by
    simp [cellOf, hfi]
  rw [hcell]
  unfold encodeRow
  have hkl : ((keepCols df cats).map (cellOf df.cols r)).length
      = (keepCols df cats).length := by simp
  rw [List.getD_append_right _ _ _ _ (by rw [hkl]; exact Nat.le_add_left _ _)]
  rw [hkl, Nat.add_sub_cancel]
  rw [getD_map_lt hjlt' _ _ (c, v), hpairj]

/-! ### One-hot encoder: the indicator-sum invariant -/

theorem distinctVals_nodup (d : Dataset) (c : String) : (distinctVals d c).Nodup :=
  (List.perm_insertionSort _ _).nodup_iff.mpr (List.nodup_dedup _)

theorem mem_distinctVals {d : Dataset} {c : String} {x : Value}
    (hx : x ∈ colVals d c) (hna : x ≠ Value.na) : x ∈ distinctVals d c :=
  (List.perm_insertionSort _ _).mem_iff.mpr
    (List.mem_dedup.mpr (List.mem_filter.mpr ⟨hx, by simpa using hna⟩))

theorem distinctVals_ne_na {d : Dataset} {c : String} {v : Value}
    (hv : v ∈ distinctVals d c) : v ≠ Value.na := by
  have := List.mem_filter.mp
    (List.mem_dedup.mp ((List.perm_insertionSort _ _).mem_iff.mp hv))
  simpa using this.2

theorem sum_ite_eq_zero {x : Value} :
    ∀ l : List Value, x ∉ l → ((l.map (fun v => if x = v then (1:ℚ) else 0)).sum = 0)
  | [], _ => rfl
  | a :: t, h => by
      have hx : ¬ x = a := fun hh => h (by simp [hh])
      have ht : x ∉ t := fun hh => h (by simp [hh])
      simp [hx, sum_ite_eq_zero t ht]

theorem sum_ite_eq_one {x : Value} :
    ∀ l : List Value, l.Nodup → x ∈ l →
      ((l.map (fun v => if x = v then (1:ℚ) else 0)).sum = 1)
  | [], _, h => absurd h (by simp)
  | a :: t, hnd, h => by
      by_cases hx : x = a
      · have hxt : x ∉ t := fun hh => (List.nodup_cons.mp hnd).1 (hx ▸ hh)
        simp [hx, sum_ite_eq_zero t (hx ▸ hxt)]
      · have hxt : x ∈ t := by
          rcases List.mem_cons.mp h with h | h
          · exact absurd h hx
          · exact h
        simp [hx, sum_ite_eq_one t (List.nodup_cons.mp hnd).2 hxt]

theorem pairsFor_mem {df : Dataset} {cats : List String} {c : String} {v : Value}
    (hc : c ∈ cats) (hv : v ∈ distinctVals df c) : (c, v) ∈ pairsFor df cats := by
  induction cats with
  | nil => cases hc
  | cons d ds ih =>
      rcases List.mem_cons.mp hc with h | h
      · subst h
        exact List.mem_append.mpr (Or.inl (List.mem_map.mpr ⟨v, hv, rfl⟩))
      · exact List.mem_append.mpr (Or.inr (ih h))

theorem encode_ok_inv {df out : Dataset} {cats : List String}
    (h : encode df cats = .ok out) :
    (∀ c ∈ cats, c ∈ df.cols)
    ∧ out = ⟨encodedCols df cats, df.rows.map (encodeRow df cats)⟩ := by
  unfold encode at h
  split at h
  case h_1 => cases h
  case h_2 hfind =>
    constructor
    · intro c hc
      have := List.find?_eq_none.mp hfind c hc
      simpa using this
    · injection h with h'
      exact h'.symm

/-- C4: `encode` keeps the row count, and for every row and every encoded
source column the generated indicator cells for that source sum to exactly 1
when the source cell is present and to 0 when it is missing (no indicator
column is generated for `NaN`).  The no-collision hypothesis asks that the
encoded column names be distinct, which pandas guarantees by raising on
duplicate columns. -/
theorem encode_indicator_sum (df out : Dataset) (cats : List String)
    (h : encode df cats = .ok out) (hnd : out.cols.Nodup) :
    out.rows.length = df.rows.length
    ∧ ∀ c ∈ cats, ∀ i < df.rows.length,
        indSum out df c (out.rows.getD i [])
          = if cellOf df.cols (df.rows.getD i []) c = Value.na then 0 else 1 := by
  obtain ⟨-, hout⟩ := encode_ok_inv h
  subst hout
  refine ⟨by simp, ?_⟩
  intro c hc i hi
  have hrow : (df.rows.map (encodeRow df cats)).getD i []
      = encodeRow df cats (df.rows.getD i []) := getD_map_lt hi _ _ []
  set r := df.rows.getD i [] with hr
  have hcell : ∀ v ∈ distinctVals df c,
      qOf (cellOf (encodedCols df cats) (encodeRow df cats r) (dummyName c v))
        = if cellOf df.cols r c = v then (1:ℚ) else 0 := by
    intro v hv
    rw [encodeRow_cell_dummy df cats r hnd (pairsFor_mem hc hv)]
    by_cases hx : cellOf df.cols r c = v <;> simp [hx, qOf]
  unfold indSum
  simp only [hrow]
  rw [List.map_congr_left hcell]
  by_cases hna : cellOf df.cols r c = Value.na
  · rw [if_pos hna]
    refine sum_ite_eq_zero _ (fun hmem => ?_)
    exact distinctVals_ne_na hmem hna
  · rw [if_neg hna]
    refine sum_ite_eq_one _ (distinctVals_nodup df c) (mem_distinctVals ?_ hna)
    have hmem : r ∈ df.rows := by
      rw [hr, List.getD_eq_getElem _ _ hi]
      exact List.getElem_mem hi
    exact List.mem_map.mpr ⟨r, hmem, rfl⟩

/-- Witness for C4: a present cell sums to 1, the missing cell of the third
row sums to 0. -/
theorem encode_indicator_sum_witness :
    encode dfC ["c"] = .ok outC
    ∧ outC.cols.Nodup
    ∧ indSum outC dfC "c" (outC.rows.getD 0 []) = 1
    ∧ indSum outC dfC "c" (outC.rows.getD 2 []) = 0 := by
  have h0 := (encode_indicator_sum dfC outC ["c"] rfl (by decide)).2
      "c" (by decide) 0 (by decide)
  have h2 := (encode_indicator_sum dfC outC ["c"] rfl (by decide)).2
      "c" (by decide) 2 (by decide)
  refine ⟨rfl, by decide, ?_, ?_⟩
  · simpa using h0
  · simpa using h2

/-- C5 as stated fails: `pd.get_dummies` orders the indicator columns of a
source column by ascending category value, not by first occurrence in the
data.  With observed order B, A the claim predicts columns
`region_B, region_A`, but the code produces `region_A, region_B`. -/
theorem encode_not_first_occurrence_order :
    encode ⟨["region"], [[Value.str "B"], [Value.str "A"]]⟩ ["region"]
      = .ok ⟨["region_A", "region_B"],
             [[Value.num 0, Value.num 1], [Value.num 1, Value.num 0]]⟩
    ∧ ((colVals ⟨["region"], [[Value.str "B"], [Value.str "A"]]⟩ "region").filter
        (fun v => decide (v ≠ Value.na))).dedup = [Value.str "B", Value.str "A"]
    ∧ (["region_A", "region_B"] : List String)
        ≠ [Value.str "B", Value.str "A"].map (dummyName "region") := by
  refine ⟨rfl, rfl, by decide⟩

/-- C5 (amended): `encode`'s output columns are the non-categorical columns
first, in original relative order, then the generated indicator columns
grouped by source column in `categorical_cols` order; within each source
column the indicator columns appear in ascending sorted order of the
distinct observed values (pandas sorts categories), the distinct values
being exactly the distinct non-missing values of the column. -/
theorem encode_column_order (df out : Dataset) (cats : List String)
    (h : encode df cats = .ok out) :
    out.cols = df.cols.filter (fun c => decide (c ∉ cats))
        ++ (pairsFor df cats).map (fun p => dummyName p.1 p.2)
    ∧ (∀ c ∈ cats, List.Sorted valueLe (distinctVals df c))
    ∧ (∀ c ∈ cats, (distinctVals df c).Perm
        (((colVals df c).filter (fun v => decide (v ≠ Value.na))).dedup)) := by
  obtain ⟨-, hout⟩ := encode_ok_inv h
  subst hout
  exact ⟨rfl, fun c _ => List.sorted_insertionSort _ _,
         fun c _ => List.perm_insertionSort _ _⟩

/-- Witness for C5 (amended) on the concrete `region` dataset. -/
theorem encode_column_order_witness :
    encode dfR ["region"] = .ok outR
    ∧ outR.cols = dfR.cols.filter (fun c => decide (c ∉ (["region"] : List String)))
        ++ (pairsFor dfR ["region"]).map (fun p => dummyName p.1 p.2) :=
  ⟨rfl, (encode_column_order dfR outR ["region"] rfl).1⟩

/-! ### Stratified splitter: arithmetic of the largest-remainder allocation -/

theorem map_getD_range {α : Type} (d : α) :
    ∀ l : List α, (List.range l.length).map (fun i => l.getD i d) = l := by
  intro l
  induction l with
  | nil => rfl
  | cons a t ih =>
      rw [List.length_cons, List.range_succ_eq_map, List.map_cons, List.map_map]
      simp only [List.getD_cons_zero]
      refine congrArg (a :: ·) ?_
      have : ((fun i => (a :: t).getD i d) ∘ (· + 1)) = fun i => t.getD i d := by
        funext i
        simp [Function.comp, List.getD_cons_succ]
      rw [this, ih]

theorem map_getD_range_comp {α β : Type} (d : α) (h : α → β) (l : List α) :
    (List.range l.length).map (fun i => h (l.getD i d)) = l.map h := by
  have : (fun i => h (l.getD i d)) = h ∘ (fun i => l.getD i d) := rfl
  rw [this, ← List.map_map, map_getD_range]

theorem sum_div_le (n : Nat) : ∀ l : List ℕ, (l.map (· / n)).sum ≤ l.sum / n := by
  intro l
  induction l with
  | nil => simp
  | cons a t ih =>
      rcases Nat.eq_zero_or_pos n with hn | hn
      · simp [hn]
      · calc ((a :: t).map (· / n)).sum = a / n + (t.map (· / n)).sum := by simp
          _ ≤ a / n + t.sum / n := Nat.add_le_add_left ih _
          _ ≤ (a + t.sum) / n := by
              rw [Nat.le_div_iff_mul_le hn, Nat.add_mul]
              have h1 : a / n * n ≤ a := Nat.div_mul_le_self a n
              have h2 : t.sum / n * n ≤ t.sum := Nat.div_mul_le_self _ n
              omega
          _ = (a :: t).sum / n := by simp

theorem sum_map_mul_div_le {counts : List ℕ} {draws n : Nat}
    (hsum : counts.sum = n) (hn : 0 < n) :
    (floorsOf counts draws n).sum ≤ draws := by
  have h1 : floorsOf counts draws n = (counts.map (· * draws)).map (· / n) := by
    unfold floorsOf
    rw [List.map_map]
    rfl
  have h2 : (counts.map (· * draws)).sum = n * draws := by
    rw [List.sum_map_mul_right]
    simp only [List.map_id']
    rw [hsum, Nat.mul_comm]
  calc (floorsOf counts draws n).sum ≤ (counts.map (· * draws)).sum / n := by
        rw [h1]; exact sum_div_le n _
    _ = n * draws / n := by rw [h2]
    _ = draws := Nat.mul_div_cancel_left draws hn

theorem floors_rems_decompose (counts : List ℕ) (draws n : Nat) :
    n * (floorsOf counts draws n).sum + (remsOf counts draws n).sum
      = counts.sum * draws := by
  induction counts with
  | nil => simp [floorsOf, remsOf]
  | cons a t ih =>
      have hd : n * (a * draws / n) + a * draws % n = a * draws := Nat.div_add_mod _ n
      simp only [floorsOf, remsOf, List.map_cons, List.sum_cons] at *
      rw [Nat.mul_add]
      calc n * (a * draws / n) + n * (t.map (fun m => m * draws / n)).sum
            + (a * draws % n + (t.map (fun m => m * draws % n)).sum)
          = (n * (a * draws / n) + a * draws % n)
            + (n * (t.map (fun m => m * draws / n)).sum
               + (t.map (fun m => m * draws % n)).sum) := by omega
        _ = a * draws + t.sum * draws := by rw [hd, ih]
        _ = (a + t.sum) * draws := by rw [Nat.add_mul]

theorem rems_sum_eq {counts : List ℕ} {draws n : Nat}
    (hsum : counts.sum = n) (hn : 0 < n) :
    (remsOf counts draws n).sum
      = n * (draws - (floorsOf counts draws n).sum) := by
  have h1 := floors_rems_decompose counts draws n
  rw [hsum] at h1
  have h2 := @sum_map_mul_div_le _ draws _ hsum hn
  have h3 : n * (floorsOf counts draws n).sum ≤ n * draws :=
    Nat.mul_le_mul_left _ h2
  rw [Nat.mul_sub]
  omega

theorem rems_lt {counts : List ℕ} {draws n : Nat} (hn : 0 < n) :
    ∀ x ∈ remsOf counts draws n, x < n := by
  intro x hx
  obtain ⟨m, -, rfl⟩ := List.mem_map.mp hx
  exact Nat.mod_lt _ hn

theorem le_of_nmul_le_pred_mul {n a b : Nat} (hn : 0 < n)
    (h : n * a ≤ (n - 1) * b) : a ≤ b := by
  by_contra hab
  push_neg at hab
  rcases Nat.eq_zero_or_pos a with ha | ha
  · omega
  · have h2 : (n - 1) * b ≤ (n - 1) * a := Nat.mul_le_mul_left _ (le_of_lt hab)
    have h3 : n * a ≤ (n - 1) * a := le_trans h h2
    have h4 : (n - 1) * a < n * a := (Nat.mul_lt_mul_right ha).mpr (by omega)
    omega

theorem need_le_len {counts : List ℕ} {draws n : Nat}
    (hsum : counts.sum = n) (hn : 0 < n) :
    draws - (floorsOf counts draws n).sum ≤ counts.length := by
  have h1 := @rems_sum_eq _ draws _ hsum hn
  have h2 : (remsOf counts draws n).sum ≤ (remsOf counts draws n).length * (n - 1) := by
    have := List.sum_le_card_nsmul (remsOf counts draws n) (n - 1)
      (fun x hx => by have := rems_lt hn x hx; omega)
    simpa [smul_eq_mul] using this
  have h3 : (remsOf counts draws n).length = counts.length := by simp [remsOf]
  refine le_of_nmul_le_pred_mul hn ?_
  rw [← h1, Nat.mul_comm (n - 1) _, ← h3]
  exact h2

theorem sum_le_pred_mul_countP (n : Nat) :
    ∀ l : List ℕ, (∀ x ∈ l, x < n) →
      l.sum ≤ (n - 1) * l.countP (fun x => decide (0 < x)) := by
  intro l
  induction l with
  | nil => simp
  | cons a t ih =>
      intro h
      have ha : a < n := h a (by simp)
      have ht := ih (fun x hx => h x (by simp [hx]))
      rcases Nat.eq_zero_or_pos a with h0 | h0
      · simp only [List.sum_cons, List.countP_cons, h0]
        simpa using ht
      · simp only [List.sum_cons, List.countP_cons, decide_eq_true_eq, if_pos h0]
        rw [Nat.mul_add, Nat.mul_one]
        omega

theorem pos_count_ge_need {counts : List ℕ} {draws n : Nat}
    (hsum : counts.sum = n) (hn : 0 < n) :
    draws - (floorsOf counts draws n).sum
      ≤ (remsOf counts draws n).countP (fun x => decide (0 < x)) := by
  have h1 := @rems_sum_eq _ draws _ hsum hn
  have h2 := sum_le_pred_mul_countP n (remsOf counts draws n) (rems_lt hn)
  refine le_of_nmul_le_pred_mul hn ?_
  rw [← h1]
  exact h2

theorem remsOf_getD {counts : List ℕ} {draws n i : Nat} (hik : i < counts.length) :
    (remsOf counts draws n).getD i 0 = counts.getD i 0 * draws % n := by
  unfold remsOf
  exact getD_map_lt hik _ _ 0

/-- Every class that wins a leftover row has a positive remainder: the
sorted-by-descending-remainder prefix of length `need` cannot contain a
zero-remainder class, because at least `need` classes have positive
remainders and they all sort before it. -/
theorem bonusIdx_pos {counts : List ℕ} {draws n : Nat} {i : Nat}
    (hsum : counts.sum = n) (hn : 0 < n)
    (hi : i ∈ bonusIdx counts draws n) :
    0 < (remsOf counts draws n).getD i 0 := by
  by_contra h0
  push_neg at h0
  have hzero : (remsOf counts draws n).getD i 0 = 0 := Nat.le_zero.mp h0
  unfold bonusIdx at hi
  have hLperm := List.perm_insertionSort (remOrder (remsOf counts draws n))
    (List.range counts.length)
  have hLsorted : List.Pairwise (remOrder (remsOf counts draws n))
      (List.insertionSort (remOrder (remsOf counts draws n)) (List.range counts.length)) :=
    List.sorted_insertionSort _ _
  have hsplit := List.take_append_drop (draws - (floorsOf counts draws n).sum)
      (List.insertionSort (remOrder (remsOf counts draws n)) (List.range counts.length))
  rw [← hsplit] at hLsorted
  have hrel := (List.pairwise_append.mp hLsorted).2.2
  have hPsub : ∀ p, p ∈ List.range counts.length →
      0 < (remsOf counts draws n).getD p 0 →
      p ∈ (List.insertionSort (remOrder (remsOf counts draws n))
            (List.range counts.length)).take (draws - (floorsOf counts draws n).sum) := by
    intro p hpr hppos
    have hpL : p ∈ List.insertionSort (remOrder (remsOf counts draws n))
        (List.range counts.length) := hLperm.mem_iff.mpr hpr
    rw [← hsplit] at hpL
    rcases List.mem_append.mp hpL with h | h
    · exact h
    · exfalso
      have hio := hrel i hi p h
      unfold remOrder at hio
      omega
  have hPnodup : ((List.range counts.length).filter
      (fun x => decide (0 < (remsOf counts draws n).getD x 0))).Nodup :=
    (List.nodup_range _).filter _
  have hsubset : ∀ p ∈ (List.range counts.length).filter
      (fun x => decide (0 < (remsOf counts draws n).getD x 0)),
      p ∈ ((List.insertionSort (remOrder (remsOf counts draws n))
            (List.range counts.length)).take
              (draws - (floorsOf counts draws n).sum)).erase i := by
    intro p hp
    have hmem := List.mem_filter.mp hp
    have hppos : 0 < (remsOf counts draws n).getD p 0 := by simpa using hmem.2
    have hpb := hPsub p hmem.1 hppos
    have hpne : p ≠ i := fun he => by
      rw [he, hzero] at hppos
      exact absurd hppos (by omega)
    exact (List.mem_erase_of_ne hpne).mpr hpb
  have hlen1 : ((List.range counts.length).filter
      (fun x => decide (0 < (remsOf counts draws n).getD x 0))).length
      ≤ (((List.insertionSort (remOrder (remsOf counts draws n))
            (List.range counts.length)).take
              (draws - (floorsOf counts draws n).sum)).erase i).length :=
    (List.Nodup.subperm hPnodup (fun p hp => hsubset p hp)).length_le
  have hlen2 : (((List.insertionSort (remOrder (remsOf counts draws n))
        (List.range counts.length)).take
          (draws - (floorsOf counts draws n).sum)).erase i).length
      = ((List.insertionSort (remOrder (remsOf counts draws n))
          (List.range counts.length)).take
            (draws - (floorsOf counts draws n).sum)).length - 1 :=
    List.length_erase_of_mem hi
  have hlen3 : ((List.insertionSort (remOrder (remsOf counts draws n))
      (List.range counts.length)).take
        (draws - (floorsOf counts draws n).sum)).length
      ≤ draws - (floorsOf counts draws n).sum := by
    rw [List.length_take]
    exact Nat.min_le_left _ _
  have hcount : (remsOf counts draws n).countP (fun x => decide (0 < x))
      = ((List.range counts.length).filter
          (fun x => decide (0 < (remsOf counts draws n).getD x 0))).length := by
    rw [List.countP_eq_length_filter]
    have hl : (remsOf counts draws n).length = counts.length := by simp [remsOf]
    have hmap : (List.range counts.length).map
        (fun x => (remsOf counts draws n).getD x 0) = remsOf counts draws n := by
      rw [← hl]
      exact map_getD_range 0 _
    conv_lhs => rw [← hmap]
    rw [List.filter_map, List.length_map]
    rfl
  have hA5 := @pos_count_ge_need _ draws _ hsum hn
  have hne : ((List.insertionSort (remOrder (remsOf counts draws n))
      (List.range counts.length)).take (draws - (floorsOf counts draws n).sum)) ≠ [] :=
    fun he => by rw [he] at hi; cases hi
  have hpos := List.length_pos.mpr hne
  omega

theorem bonusIdx_length {counts : List ℕ} {draws n : Nat}
    (hsum : counts.sum = n) (hn : 0 < n) :
    (bonusIdx counts draws n).length = draws - (floorsOf counts draws n).sum := by
  unfold bonusIdx
  rw [List.length_take, (List.perm_insertionSort _ _).length_eq, List.length_range]
  exact Nat.min_eq_left (need_le_len hsum hn)

theorem bonusIdx_nodup (counts : List ℕ) (draws n : Nat) :
    (bonusIdx counts draws n).Nodup :=
  List.Nodup.sublist (List.take_sublist _ _)
    ((List.perm_insertionSort _ _).nodup_iff.mpr (List.nodup_range _))

theorem bonusIdx_sub_range {counts : List ℕ} {draws n : Nat} {i : Nat}
    (hi : i ∈ bonusIdx counts draws n) : i ∈ List.range counts.length :=
  (List.perm_insertionSort _ _).mem_iff.mp ((List.take_sublist _ _).subset hi)

theorem ceil_div_of_pos_mod {x n : Nat} (hn : 0 < n) (hr : 0 < x % n) :
    (x + n - 1) / n = x / n + 1 := by
  have hx1 : 1 ≤ x := by
    by_contra hx
    push_neg at hx
    have hx0 : x = 0 := by omega
    rw [hx0] at hr
    simp at hr
  have hnd : ¬ n ∣ x := by
    intro hdvd
    rw [Nat.dvd_iff_mod_eq_zero] at hdvd
    omega
  calc (x + n - 1) / n = ((x - 1) + n) / n := by congr 1; omega
    _ = (x - 1) / n + 1 := Nat.add_div_right _ hn
    _ = x / n + 1 := by
        have hs := Nat.succ_div (x - 1) n
        rw [Nat.sub_add_cancel hx1] at hs
        rw [if_neg hnd] at hs
        omega

theorem allocOf_upper {counts : List ℕ} {draws n : Nat}
    (hsum : counts.sum = n) (hn : 0 < n) {i : Nat} (hik : i < counts.length) :
    allocOf counts draws n i ≤ (counts.getD i 0 * draws + n - 1) / n := by
  unfold allocOf
  by_cases hb : i ∈ bonusIdx counts draws n
  · rw [if_pos hb]
    have hp := bonusIdx_pos hsum hn hb
    rw [remsOf_getD hik] at hp
    rw [ceil_div_of_pos_mod hn hp]
  · rw [if_neg hb]
    simp only [Nat.add_zero]
    exact Nat.div_le_div_right (by omega)

theorem allocOf_le_count {counts : List ℕ} {draws n : Nat}
    (hsum : counts.sum = n) (hn : 0 < n) (hdle : draws ≤ n)
    {i : Nat} (hik : i < counts.length) :
    allocOf counts draws n i ≤ counts.getD i 0 := by
  unfold allocOf
  by_cases hb : i ∈ bonusIdx counts draws n
  · rw [if_pos hb]
    have hp := bonusIdx_pos hsum hn hb
    rw [remsOf_getD hik] at hp
    have hcnt : 0 < counts.getD i 0 := by
      by_contra hc
      push_neg at hc
      have hc0 : counts.getD i 0 = 0 := by omega
      rw [hc0] at hp
      simp at hp
    have hdlt : draws < n := by
      rcases Nat.lt_or_ge draws n with h | h
      · exact h
      · have hdn : draws = n := le_antisymm hdle h
        rw [hdn, Nat.mul_mod_left] at hp
        exact absurd hp (by omega)
    have hlt : counts.getD i 0 * draws / n < counts.getD i 0 := by
      rw [Nat.div_lt_iff_lt_mul hn]
      exact (Nat.mul_lt_mul_left hcnt).mpr hdlt
    omega
  · rw [if_neg hb]
    simp only [Nat.add_zero]
    calc counts.getD i 0 * draws / n ≤ counts.getD i 0 * n / n :=
        Nat.div_le_div_right (Nat.mul_le_mul_left _ hdle)
      _ = counts.getD i 0 := by
          rw [Nat.mul_comm]
          exact Nat.mul_div_cancel_left _ hn

theorem allocList_length (counts : List ℕ) (draws n : Nat) :
    (allocList counts draws n).length = counts.length := by
  simp [allocList]

theorem allocList_getD {counts : List ℕ} {draws n : Nat} {i : Nat}
    (hik : i < counts.length) :
    (allocList counts draws n).getD i 0 = allocOf counts draws n i := by
  unfold allocList
  rw [getD_map_lt (by simpa using hik) _ _ 0]
  congr 1
  rw [List.getD_eq_getElem _ _ (by simpa using hik), List.getElem_range]

theorem sum_map_add_split {α : Type} (f g : α → ℕ) :
    ∀ l : List α, (l.map (fun x => f x + g x)).sum = (l.map f).sum + (l.map g).sum := by
  intro l
  induction l with
  | nil => rfl
  | cons a t ih => simp only [List.map_cons, List.sum_cons, ih]; omega

theorem sum_ite_mem (S : List ℕ) :
    ∀ l : List ℕ, (l.map (fun i => if i ∈ S then 1 else 0)).sum
      = (l.filter (fun i => decide (i ∈ S))).length := by
  intro l
  induction l with
  | nil => rfl
  | cons a t ih =>
      by_cases ha : a ∈ S
      · simp [List.filter_cons, ha, ih]
        omega
      · simp [List.filter_cons, ha, ih]

theorem filter_mem_length :
    ∀ l : List ℕ, l.Nodup → ∀ S : List ℕ, S.Nodup → (∀ x ∈ S, x ∈ l) →
      (l.filter (fun i => decide (i ∈ S))).length = S.length := by
  intro l
  induction l with
  | nil =>
      intro _ S _ hsub
      have hS : S = [] := List.eq_nil_iff_forall_not_mem.mpr
        (fun x hx => by cases hsub x hx)
      rw [hS]
      rfl
  | cons b t ih =>
      intro hl S hS hsub
      have hbt : b ∉ t := (List.nodup_cons.mp hl).1
      have ht : t.Nodup := (List.nodup_cons.mp hl).2
      by_cases hb : b ∈ S
      · rw [List.filter_cons, if_pos (by simpa using hb)]
        have hS' : (S.erase b).Nodup := hS.erase b
        have hsub' : ∀ x ∈ S.erase b, x ∈ t := by
          intro x hx
          have hx' := hS.mem_erase_iff.mp hx
          rcases List.mem_cons.mp (hsub x hx'.2) with h | h
          · exact absurd h hx'.1
          · exact h
        have hcong : t.filter (fun i => decide (i ∈ S))
            = t.filter (fun i => decide (i ∈ S.erase b)) := by
          refine List.filter_congr (fun x hx => ?_)
          have hxb : x ≠ b := fun he => hbt (he ▸ hx)
          simp only [decide_eq_decide]
          rw [hS.mem_erase_iff]
          constructor
          · intro hxs; exact ⟨hxb, hxs⟩
          · intro hxs; exact hxs.2
        rw [List.length_cons, hcong, ih ht (S.erase b) hS' hsub',
            List.length_erase_of_mem hb]
        have hpos : 0 < S.length := List.length_pos.mpr
          (fun he => by rw [he] at hb; cases hb)
        omega
      · rw [List.filter_cons, if_neg (by simpa using hb)]
        refine ih ht S hS (fun x hx => ?_)
        rcases List.mem_cons.mp (hsub x hx) with h | h
        · exact absurd (h ▸ hx) hb
        · exact h

theorem allocList_sum {counts : List ℕ} {draws n : Nat}
    (hsum : counts.sum = n) (hn : 0 < n) (_hdle : draws ≤ n) :
    (allocList counts draws n).sum = draws := by
  unfold allocList allocOf
  rw [sum_map_add_split]
  have hfloors : ((List.range counts.length).map
      (fun i => counts.getD i 0 * draws / n)).sum = (floorsOf counts draws n).sum := by
    rw [map_getD_range_comp 0 (fun m => m * draws / n) counts]
    rfl
  have hbonus : ((List.range counts.length).map
      (fun i => if i ∈ bonusIdx counts draws n then 1 else 0)).sum
      = draws - (floorsOf counts draws n).sum := by
    rw [sum_ite_mem]
    rw [filter_mem_length (List.range counts.length) (List.nodup_range _)
        (bonusIdx counts draws n) (bonusIdx_nodup counts draws n)
        (fun x hx => bonusIdx_sub_range hx)]
    exact bonusIdx_length hsum hn
  rw [hfloors, hbonus]
  have := @sum_map_mul_div_le _ draws _ hsum hn
  omega

/-! ### Stratified splitter: per-class take/drop lemmas -/

theorem takeClasses_nil_vs (rows : List (List Value)) (cols : List String)
    (c : String) (al : List Nat) : takeClasses rows cols c [] al = [] := rfl

theorem dropClasses_nil_vs (rows : List (List Value)) (cols : List String)
    (c : String) (al : List Nat) : dropClasses rows cols c [] al = [] := rfl

theorem takeClasses_key_mem {rows : List (List Value)} {cols : List String} {c : String} :
    ∀ {vs : List Value} {al : List Nat} {r : List Value},
      r ∈ takeClasses rows cols c vs al → cellOf cols r c ∈ vs := by
  intro vs
  induction vs with
  | nil =>
      intro al r h
      rw [takeClasses_nil_vs] at h
      cases h
  | cons v vs' ih =>
      intro al r h
      cases al with
      | nil => cases h
      | cons a al' =>
          rcases List.mem_append.mp h with h | h
          · have hf := List.mem_filter.mp ((List.take_sublist _ _).subset h)
            have hv : cellOf cols r c = v := by simpa [keyIs] using hf.2
            simp [hv]
          · simp [ih h]

theorem dropClasses_key_mem {rows : List (List Value)} {cols : List String} {c : String} :
    ∀ {vs : List Value} {al : List Nat} {r : List Value},
      r ∈ dropClasses rows cols c vs al → cellOf cols r c ∈ vs := by
  intro vs
  induction vs with
  | nil =>
      intro al r h
      rw [dropClasses_nil_vs] at h
      cases h
  | cons v vs' ih =>
      intro al r h
      cases al with
      | nil => cases h
      | cons a al' =>
          rcases List.mem_append.mp h with h | h
          · have hf := List.mem_filter.mp ((List.drop_sublist _ _).subset h)
            have hv : cellOf cols r c = v := by simpa [keyIs] using hf.2
            simp [hv]
          · simp [ih h]

theorem filter_filter_ne {rows : List (List Value)} {cols : List String} {c : String}
    {v v' : Value} (hne : v' ≠ v) :
    (rows.filter (fun r => !(keyIs cols c v r))).filter (keyIs cols c v')
      = rows.filter (keyIs cols c v') := by
  rw [List.filter_filter]
  refine List.filter_congr (fun r _ => ?_)
  by_cases h : cellOf cols r c = v'
  · have h2 : ¬ cellOf cols r c = v := fun he => hne (by rw [← h, he])
    simp [keyIs, h, h2, hne]
  · simp [keyIs, h]

theorem takeClasses_filter_congr {rows : List (List Value)} {cols : List String}
    {c : String} {v : Value} :
    ∀ {vs : List Value} {al : List Nat}, v ∉ vs →
      takeClasses (rows.filter (fun r => !(keyIs cols c v r))) cols c vs al
        = takeClasses rows cols c vs al := by
  intro vs
  induction vs with
  | nil => intro al _; rfl
  | cons v' vs' ih =>
      intro al hnv
      cases al with
      | nil => rfl
      | cons a al' =>
          have hne : v' ≠ v := fun he => hnv (by simp [he])
          simp only [takeClasses]
          rw [filter_filter_ne hne, ih (fun h => hnv (by simp [h]))]

theorem dropClasses_filter_congr {rows : List (List Value)} {cols : List String}
    {c : String} {v : Value} :
    ∀ {vs : List Value} {al : List Nat}, v ∉ vs →
      dropClasses (rows.filter (fun r => !(keyIs cols c v r))) cols c vs al
        = dropClasses rows cols c vs al := by
  intro vs
  induction vs with
  | nil => intro al _; rfl
  | cons v' vs' ih =>
      intro al hnv
      cases al with
      | nil => rfl
      | cons a al' =>
          have hne : v' ≠ v := fun he => hnv (by simp [he])
          simp only [dropClasses]
          rw [filter_filter_ne hne, ih (fun h => hnv (by simp [h]))]

/-- The two sides of one stratified shuffle split are, together, a
permutation of the input rows: every row lands on exactly one side. -/
theorem take_drop_classes_perm {cols : List String} {c : String} :
    ∀ (vs : List Value) (al : List Nat) (rows : List (List Value)), vs.Nodup →
      al.length = vs.length →
      (∀ r ∈ rows, cellOf cols r c ∈ vs) →
      (takeClasses rows cols c vs al ++ dropClasses rows cols c vs al).Perm rows := by
  intro vs
  induction vs with
  | nil =>
      intro al rows _ _ hkey
      have hrows : rows = [] := List.eq_nil_iff_forall_not_mem.mpr
        (fun r hr => by cases hkey r hr)
      rw [hrows, takeClasses_nil_vs, dropClasses_nil_vs]
      rfl
  | cons v vs' ih =>
      intro al rows hnd hlen hkey
      cases al with
      | nil => simp at hlen
      | cons a al' =>
          have hnv : v ∉ vs' := (List.nodup_cons.mp hnd).1
          have hkey' : ∀ r ∈ rows.filter (fun r => !(keyIs cols c v r)),
              cellOf cols r c ∈ vs' := by
            intro r hr
            have hm := List.mem_filter.mp hr
            have hne : cellOf cols r c ≠ v := by
              have := hm.2
              simp only [Bool.not_eq_eq_eq_not, Bool.not_true, keyIs] at this
              simpa using this
            rcases List.mem_cons.mp (hkey r hm.1) with h | h
            · exact absurd h hne
            · exact h
          have hIH := ih al' (rows.filter (fun r => !(keyIs cols c v r)))
            (List.nodup_cons.mp hnd).2 (by simpa using hlen) hkey'
          rw [takeClasses_filter_congr hnv, dropClasses_filter_congr hnv] at hIH
          have e1 : takeClasses rows cols c (v :: vs') (a :: al')
              ++ dropClasses rows cols c (v :: vs') (a :: al')
              = (rows.filter (keyIs cols c v)).take a
                ++ (takeClasses rows cols c vs' al'
                    ++ ((rows.filter (keyIs cols c v)).drop a
                        ++ dropClasses rows cols c vs' al')) := by
            simp only [takeClasses, dropClasses, List.append_assoc]
          have p1 : (takeClasses rows cols c vs' al'
              ++ ((rows.filter (keyIs cols c v)).drop a
                  ++ dropClasses rows cols c vs' al')).Perm
              ((rows.filter (keyIs cols c v)).drop a
                ++ (takeClasses rows cols c vs' al'
                    ++ dropClasses rows cols c vs' al')) := by
            rw [← List.append_assoc, ← List.append_assoc]
            exact List.Perm.append_right _ List.perm_append_comm
          rw [e1]
          refine (List.Perm.append_left _ p1).trans ?_
          rw [show (rows.filter (keyIs cols c v)).take a
              ++ ((rows.filter (keyIs cols c v)).drop a
                  ++ (takeClasses rows cols c vs' al'
                      ++ dropClasses rows cols c vs' al'))
              = rows.filter (keyIs cols c v)
                ++ (takeClasses rows cols c vs' al'
                    ++ dropClasses rows cols c vs' al') from by
            rw [← List.append_assoc, List.take_append_drop]]
          exact (List.Perm.append_left _ hIH).trans (List.filter_append_perm _ rows)

/-- The first side of the split draws exactly the allocated number of rows,
provided each class allocation fits inside the class. -/
theorem takeClasses_length {rows : List (List Value)} {cols : List String} {c : String} :
    ∀ (vs : List Value) (al : List Nat), al.length = vs.length →
      (∀ i, i < vs.length →
        al.getD i 0 ≤ (rows.filter (keyIs cols c (vs.getD i Value.na))).length) →
      (takeClasses rows cols c vs al).length = al.sum := by
  intro vs
  induction vs with
  | nil =>
      intro al hlen _
      have hal : al = [] := List.length_eq_zero.mp hlen
      rw [hal, takeClasses_nil_vs]
      rfl
  | cons v vs' ih =>
      intro al hlen hle
      cases al with
      | nil => simp at hlen
      | cons a al' =>
          have h0 := hle 0 (by simp)
          simp only [List.getD_cons_zero] at h0
          have hle' : ∀ i, i < vs'.length →
              al'.getD i 0 ≤ (rows.filter (keyIs cols c (vs'.getD i Value.na))).length := by
            intro i hi
            have := hle (i + 1) (by simpa using Nat.succ_lt_succ hi)
            simpa using this
          simp only [takeClasses, List.length_append, List.length_take, List.sum_cons]
          rw [ih al' (by simpa using hlen) hle', Nat.min_eq_left h0]

/-- The number of rows of a given class on the first side of the split is
exactly that class's allocation. -/
theorem takeClasses_countP {rows : List (List Value)} {cols : List String} {c : String} :
    ∀ (vs : List Value) (al : List Nat), vs.Nodup → al.length = vs.length →
      (∀ i, i < vs.length →
        al.getD i 0 ≤ (rows.filter (keyIs cols c (vs.getD i Value.na))).length) →
      ∀ i, i < vs.length →
        (takeClasses rows cols c vs al).countP (keyIs cols c (vs.getD i Value.na))
          = al.getD i 0 := by
  intro vs
  induction vs with
  | nil => intro al _ _ _ i hi; cases hi
  | cons v vs' ih =>
      intro al hnd hlen hle i hi
      cases al with
      | nil => simp at hlen
      | cons a al' =>
          have hle' : ∀ j, j < vs'.length →
              al'.getD j 0 ≤ (rows.filter (keyIs cols c (vs'.getD j Value.na))).length := by
            intro j hj
            have := hle (j + 1) (by simpa using Nat.succ_lt_succ hj)
            simpa using this
          simp only [takeClasses, List.countP_append]
          cases i with
          | zero =>
              simp only [List.getD_cons_zero]
              have htake : ((rows.filter (keyIs cols c v)).take a).countP
                  (keyIs cols c v) = ((rows.filter (keyIs cols c v)).take a).length := by
                rw [List.countP_eq_length]
                intro r hr
                exact (List.mem_filter.mp ((List.take_sublist _ _).subset hr)).2
              have hrest : (takeClasses rows cols c vs' al').countP (keyIs cols c v) = 0 := by
                rw [List.countP_eq_zero]
                intro r hr
                have hkey := takeClasses_key_mem hr
                have hne : cellOf cols r c ≠ v := fun he =>
                  (List.nodup_cons.mp hnd).1 (he ▸ hkey)
                simpa [keyIs] using hne
              rw [htake, hrest, List.length_take,
                  Nat.min_eq_left (by simpa using hle 0 (by simp))]
              omega
          | succ j =>
              have hj : j < vs'.length := by simpa using hi
              simp only [List.getD_cons_succ]
              have htake : ((rows.filter (keyIs cols c v)).take a).countP
                  (keyIs cols c (vs'.getD j Value.na)) = 0 := by
                rw [List.countP_eq_zero]
                intro r hr
                have hv : cellOf cols r c = v :=
                  by simpa [keyIs] using
                    (List.mem_filter.mp ((List.take_sublist _ _).subset hr)).2
                have hmem : vs'.getD j Value.na ∈ vs' := by
                  rw [List.getD_eq_getElem _ _ hj]
                  exact List.getElem_mem hj
                have hne : v ≠ vs'.getD j Value.na := fun he =>
                  (List.nodup_cons.mp hnd).1 (he ▸ hmem)
                simp only [keyIs, hv, decide_eq_true_eq]
                exact fun he => hne he
              rw [htake, ih al' (List.nodup_cons.mp hnd).2 (by simpa using hlen)
                  hle' j hj]
              omega

/-- With no missing strata, the class counts add up to the row count. -/
theorem counts_sum_eq {cols : List String} {c : String} :
    ∀ (vs : List Value) (rows : List (List Value)), vs.Nodup →
      (∀ r ∈ rows, cellOf cols r c ∈ vs) →
      (vs.map (fun v => (rows.filter (keyIs cols c v)).length)).sum = rows.length := by
  intro vs
  induction vs with
  | nil =>
      intro rows _ hkey
      have hrows : rows = [] := List.eq_nil_iff_forall_not_mem.mpr
        (fun r hr => by cases hkey r hr)
      rw [hrows]
      rfl
  | cons v vs' ih =>
      intro rows hnd hkey
      have hnv : v ∉ vs' := (List.nodup_cons.mp hnd).1
      have hkey' : ∀ r ∈ rows.filter (fun r => !(keyIs cols c v r)),
          cellOf cols r c ∈ vs' := by
        intro r hr
        have hm := List.mem_filter.mp hr
        have hne : cellOf cols r c ≠ v := by
          have := hm.2
          simp only [keyIs] at this
          simpa using this
        rcases List.mem_cons.mp (hkey r hm.1) with h | h
        · exact absurd h hne
        · exact h
      have hIH := ih (rows.filter (fun r => !(keyIs cols c v r)))
        (List.nodup_cons.mp hnd).2 hkey'
      have hcong : vs'.map (fun v' => (rows.filter (keyIs cols c v')).length)
          = vs'.map (fun v' =>
              (((rows.filter (fun r => !(keyIs cols c v r))).filter
                (keyIs cols c v'))).length) := by
        refine List.map_congr_left (fun v' hv' => ?_)
        rw [filter_filter_ne (fun he => hnv (by rw [← he]; exact hv'))]
      have hsplitlen : (rows.filter (keyIs cols c v)).length
          + (rows.filter (fun r => !(keyIs cols c v r))).length = rows.length := by
        have := (List.filter_append_perm (keyIs cols c v) rows).length_eq
        simpa using this
      simp only [List.map_cons, List.sum_cons]
      rw [hcong, hIH]
      exact hsplitlen

theorem tts_ok_inv {d : Dataset} {c : String} {t : Nat} {tr rest : Dataset}
    (h : tts d c t = .ok (tr, rest)) :
    c ∈ d.cols ∧ 0 < d.rows.length
    ∧ (∀ r ∈ d.rows, cellOf d.cols r c ≠ Value.na)
    ∧ tr = ⟨d.cols, takeClasses d.rows d.cols c (distinctVals d c) (ttsAlloc d c t)⟩
    ∧ rest = ⟨d.cols, dropClasses d.rows d.cols c (distinctVals d c) (ttsAlloc d c t)⟩ := by
  unfold tts at h
  by_cases hc : c ∈ d.cols
  case neg => rw [if_neg hc] at h; cases h
  rw [if_pos hc] at h
  by_cases h0 : d.rows.length = 0
  case pos => rw [if_pos h0] at h; cases h
  rw [if_neg h0] at h
  by_cases hna : d.rows.any (fun r => decide (cellOf d.cols r c = Value.na)) = true
  case pos => rw [if_pos hna] at h; cases h
  rw [if_neg hna] at h
  by_cases h2 : (countsOf d c).any (fun m => decide (m < 2)) = true
  case pos => rw [if_pos h2] at h; cases h
  rw [if_neg h2] at h
  by_cases h3 : d.rows.length - t < (distinctVals d c).length
  case pos => rw [if_pos h3] at h; cases h
  rw [if_neg h3] at h
  by_cases h4 : t < (distinctVals d c).length
  case pos => rw [if_pos h4] at h; cases h
  rw [if_neg h4] at h
  injection h with h'
  injection h' with h1 h2'
  refine ⟨hc, Nat.pos_of_ne_zero h0, ?_, h1.symm, h2'.symm⟩
  intro r hr
  have hfalse : (d.rows.any fun r => decide (cellOf d.cols r c = Value.na)) = false := by
    revert hna
    cases d.rows.any fun r => decide (cellOf d.cols r c = Value.na) <;> simp
  have := List.any_eq_false.mp hfalse r hr
  simpa using this

/-- Full behaviour of one stratified `train_test_split` call: columns are
kept, the two sides partition the rows, the side lengths are exactly
`n - testNum` and `testNum`, and for every stratum the first side's count is
within rounding (floor/ceiling) of the stratum's proportional share, with
the second side holding exactly the complement. -/
theorem tts_spec {d : Dataset} {c : String} {t : Nat} {tr rest : Dataset}
    (h : tts d c t = .ok (tr, rest)) (htle : t ≤ d.rows.length) :
    tr.cols = d.cols ∧ rest.cols = d.cols
    ∧ 0 < d.rows.length
    ∧ (tr.rows ++ rest.rows).Perm d.rows
    ∧ tr.rows.length = d.rows.length - t
    ∧ rest.rows.length = t
    ∧ (∀ r ∈ rest.rows, r ∈ d.rows)
    ∧ (∀ r ∈ rest.rows, cellOf d.cols r c ≠ Value.na)
    ∧ (∀ v : Value,
        d.rows.countP (keyIs d.cols c v) * (d.rows.length - t) / d.rows.length
            ≤ tr.rows.countP (keyIs d.cols c v)
        ∧ tr.rows.countP (keyIs d.cols c v)
            ≤ (d.rows.countP (keyIs d.cols c v) * (d.rows.length - t)
                + d.rows.length - 1) / d.rows.length
        ∧ tr.rows.countP (keyIs d.cols c v) + rest.rows.countP (keyIs d.cols c v)
            = d.rows.countP (keyIs d.cols c v)) := by
  obtain ⟨hc, hn, hna, htr, hrest⟩ := tts_ok_inv h
  subst htr
  subst hrest
  have hkeymem : ∀ r ∈ d.rows, cellOf d.cols r c ∈ distinctVals d c := fun r hr =>
    mem_distinctVals (List.mem_map.mpr ⟨r, hr, rfl⟩) (hna r hr)
  have hndvs := distinctVals_nodup d c
  have hsum : (countsOf d c).sum = d.rows.length :=
    counts_sum_eq _ _ hndvs hkeymem
  have hcountslen : (countsOf d c).length = (distinctVals d c).length := by
    simp [countsOf]
  have hallen : (ttsAlloc d c t).length = (distinctVals d c).length := by
    rw [ttsAlloc, allocList_length, hcountslen]
  have hdle : d.rows.length - t ≤ d.rows.length := Nat.sub_le _ _
  have hcounts_getD : ∀ i, i < (distinctVals d c).length →
      (countsOf d c).getD i 0
        = (d.rows.filter
            (keyIs d.cols c ((distinctVals d c).getD i Value.na))).length := by
    intro i hi
    unfold countsOf
    exact getD_map_lt hi _ _ Value.na
  have hal_getD : ∀ i, i < (distinctVals d c).length →
      (ttsAlloc d c t).getD i 0
        = allocOf (countsOf d c) (d.rows.length - t) d.rows.length i := by
    intro i hi
    unfold ttsAlloc
    exact allocList_getD (by rw [hcountslen]; exact hi)
  have hle : ∀ i, i < (distinctVals d c).length →
      (ttsAlloc d c t).getD i 0
        ≤ (d.rows.filter
            (keyIs d.cols c ((distinctVals d c).getD i Value.na))).length := by
    intro i hi
    rw [hal_getD i hi, ← hcounts_getD i hi]
    exact allocOf_le_count hsum hn hdle (by rw [hcountslen]; exact hi)
  have hperm := @take_drop_classes_perm d.cols c
    (distinctVals d c) (ttsAlloc d c t) d.rows hndvs hallen hkeymem
  have hTlen : (takeClasses d.rows d.cols c (distinctVals d c)
      (ttsAlloc d c t)).length = (ttsAlloc d c t).sum :=
    takeClasses_length _ _ hallen hle
  have halsum : (ttsAlloc d c t).sum = d.rows.length - t := by
    unfold ttsAlloc
    exact allocList_sum hsum hn hdle
  have hlensplit := hperm.length_eq
  rw [List.length_append] at hlensplit
  have hrestmem : ∀ r ∈ dropClasses d.rows d.cols c (distinctVals d c)
      (ttsAlloc d c t), r ∈ d.rows := by
    intro r hr
    exact hperm.mem_iff.mp (List.mem_append.mpr (Or.inr hr))
  refine ⟨rfl, rfl, hn, hperm,
          by show (takeClasses d.rows d.cols c (distinctVals d c)
                (ttsAlloc d c t)).length = d.rows.length - t
             rw [hTlen, halsum],
          by show (dropClasses d.rows d.cols c (distinctVals d c)
                (ttsAlloc d c t)).length = t
             omega,
          hrestmem, fun r hr => hna r (hrestmem r hr), ?_⟩
  intro v
  have hthird : (takeClasses d.rows d.cols c (distinctVals d c)
        (ttsAlloc d c t)).countP (keyIs d.cols c v)
      + (dropClasses d.rows d.cols c (distinctVals d c)
          (ttsAlloc d c t)).countP (keyIs d.cols c v)
      = d.rows.countP (keyIs d.cols c v) := by
    have := hperm.countP_eq (keyIs d.cols c v)
    rwa [List.countP_append] at this
  by_cases hv : v ∈ distinctVals d c
  · obtain ⟨i, hi, hvi⟩ := List.getElem_of_mem hv
    have hgetD : (distinctVals d c).getD i Value.na = v := by
      rw [List.getD_eq_getElem _ _ hi]
      exact hvi
    have hcount_tr := takeClasses_countP (distinctVals d c) (ttsAlloc d c t)
      hndvs hallen hle i hi
    rw [hgetD] at hcount_tr
    have hcnt : (countsOf d c).getD i 0 = d.rows.countP (keyIs d.cols c v) := by
      rw [hcounts_getD i hi, hgetD, ← List.countP_eq_length_filter]
    have hik : i < (countsOf d c).length := by rw [hcountslen]; exact hi
    refine ⟨?_, ?_, hthird⟩
    · rw [hcount_tr, hal_getD i hi, ← hcnt]
      unfold allocOf
      exact Nat.le_add_right _ _
    · rw [hcount_tr, hal_getD i hi, ← hcnt]
      exact allocOf_upper hsum hn hik
  · have htr0 : (takeClasses d.rows d.cols c (distinctVals d c)
        (ttsAlloc d c t)).countP (keyIs d.cols c v) = 0 := by
      rw [List.countP_eq_zero]
      intro r hr
      have hkey := takeClasses_key_mem hr
      simp only [keyIs, decide_eq_true_eq]
      exact fun he => hv (he ▸ hkey)
    have hrows0 : d.rows.countP (keyIs d.cols c v) = 0 := by
      rw [List.countP_eq_zero]
      intro r hr
      simp only [keyIs, decide_eq_true_eq]
      exact fun he => hv (he ▸ hkeymem r hr)
    refine ⟨?_, ?_, hthird⟩
    · rw [htr0, hrows0]
      simp
    · rw [htr0]
      exact Nat.zero_le _

theorem ceil40_le (n : Nat) : ceil40 n ≤ n := by
  unfold ceil40
  rw [Nat.div_le_iff_le_mul_add_pred (by omega)]
  omega

theorem ceil40_pos {n : Nat} (hn : 0 < n) : 0 < ceil40 n := by
  unfold ceil40
  show 1 ≤ (2 * n + 4) / 5
  rw [Nat.le_div_iff_mul_le (by omega)]
  omega

theorem ceil50_le (m : Nat) : ceil50 m ≤ m := by
  unfold ceil50
  rcases Nat.eq_zero_or_pos m with hm | hm
  · omega
  · rw [Nat.div_le_iff_le_mul_add_pred (by omega)]
    omega

theorem split_ok_inv {d : Dataset} {c : String} {tr va te : Dataset}
    (h : split d c = .ok (tr, va, te)) :
    ∃ rest, tts d c (ceil40 d.rows.length) = .ok (tr, rest)
      ∧ tts rest c (ceil50 rest.rows.length) = .ok (va, te) := by
  unfold split at h
  split at h
  case h_1 => cases h
  case h_2 tr' rest heq1 =>
    split at h
    case h_1 => cases h
    case h_2 va' te' heq2 =>
      injection h with h'
      injection h' with ha hbc
      injection hbc with hb hc'
      refine ⟨rest, ?_, ?_⟩
      · rw [heq1, ha]
      · rw [heq2, hb, hc']

/-- C1: a successful `split` returns three datasets over the input's columns
whose rows, together, are a permutation of the input rows (pairwise disjoint
by row identity, union exactly the input); the sizes realize the 60/40 split
(train gets `n - ceil(0.4 n)` rows) and the 50/50 split of the remainder
(test gets `ceil(0.5 m)` of the `m = ceil(0.4 n)` remaining rows); and for
every stratum of the stratification column, the train count lies within
rounding (between floor and ceiling) of the stratum's proportional share of
the train size, the valid count within rounding of half the stratum's
remainder, and valid and test exactly exhaust the stratum's remainder. -/
theorem split_spec (d : Dataset) (c : String) (tr va te : Dataset)
    (h : split d c = .ok (tr, va, te)) :
    (tr.rows ++ (va.rows ++ te.rows)).Perm d.rows
    ∧ tr.cols = d.cols ∧ va.cols = d.cols ∧ te.cols = d.cols
    ∧ tr.rows.length = d.rows.length - ceil40 d.rows.length
    ∧ va.rows.length = ceil40 d.rows.length - ceil50 (ceil40 d.rows.length)
    ∧ te.rows.length = ceil50 (ceil40 d.rows.length)
    ∧ (∀ v : Value,
        countClass d c v * (d.rows.length - ceil40 d.rows.length) / d.rows.length
            ≤ countClass tr c v
        ∧ countClass tr c v
            ≤ (countClass d c v * (d.rows.length - ceil40 d.rows.length)
                + d.rows.length - 1) / d.rows.length
        ∧ countClass tr c v + (countClass va c v + countClass te c v)
            = countClass d c v
        ∧ (countClass va c v + countClass te c v)
              * (ceil40 d.rows.length - ceil50 (ceil40 d.rows.length))
              / ceil40 d.rows.length
            ≤ countClass va c v
        ∧ countClass va c v
            ≤ ((countClass va c v + countClass te c v)
                * (ceil40 d.rows.length - ceil50 (ceil40 d.rows.length))
                + ceil40 d.rows.length - 1) / ceil40 d.rows.length) := by
  obtain ⟨rest, h1, h2⟩ := split_ok_inv h
  obtain ⟨htrcols, hrestcols, hn, hperm1, htrlen, hrestlen, hrestmem, hrestna, hcls1⟩ :=
    tts_spec h1 (ceil40_le d.rows.length)
  obtain ⟨hvacols, htecols, -, hperm2, hvalen, htelen, -, -, hcls2⟩ :=
    tts_spec h2 (ceil50_le rest.rows.length)
  have hm : rest.rows.length = ceil40 d.rows.length := hrestlen
  refine ⟨?_, htrcols, hvacols.trans hrestcols, htecols.trans hrestcols,
          htrlen, ?_, ?_, ?_⟩
  · exact (List.Perm.append_left tr.rows hperm2).trans hperm1
  · rw [hvalen, hm]
  · rw [htelen, hm]
  · intro v
    have e1 : countClass tr c v = tr.rows.countP (keyIs d.cols c v) := by
      unfold countClass
      rw [htrcols]
    have e2 : countClass va c v = va.rows.countP (keyIs d.cols c v) := by
      unfold countClass
      rw [hvacols, hrestcols]
    have e3 : countClass te c v = te.rows.countP (keyIs d.cols c v) := by
      unfold countClass
      rw [htecols, hrestcols]
    have e4 : countClass d c v = d.rows.countP (keyIs d.cols c v) := rfl
    have hcls2' := hcls2 v
    rw [hrestcols] at hcls2'
    have hcls1' := hcls1 v
    have hsum2 : va.rows.countP (keyIs d.cols c v) + te.rows.countP (keyIs d.cols c v)
        = rest.rows.countP (keyIs d.cols c v) := hcls2'.2.2
    refine ⟨?_, ?_, ?_, ?_, ?_⟩
    · rw [e1, e4]
      exact hcls1'.1
    · rw [e1, e4]
      exact hcls1'.2.1
    · rw [e1, e2, e3, e4, hsum2]
      exact hcls1'.2.2
    · rw [e2, e3, hsum2, ← hm]
      exact hcls2'.1
    · rw [e2, e3, hsum2, ← hm]
      exact hcls2'.2.1

/-- Witness for C1: the spec's own scenario, 10 rows with strata 5/5 split
into 6/2/2. -/
theorem split_spec_witness :
    split D10 "t" = .ok (TR10, VA10, TE10)
    ∧ (TR10.rows ++ (VA10.rows ++ TE10.rows)).Perm D10.rows :=
  ⟨rfl, (split_spec D10 "t" TR10 VA10 TE10 rfl).1⟩

/-! ### The orchestrator: column-update lemmas -/

theorem map_const_na : ∀ l : List (List Value),
    l.map (fun _ => Value.na) = List.replicate l.length Value.na := by
  intro l
  induction l with
  | nil => rfl
  | cons a t ih => simp [List.replicate, ih]

theorem getD_set_self {l : List Value} {j : Nat} {v : Value} (h : j < l.length) :
    (l.set j v).getD j Value.na = v := by
  rw [List.getD_eq_getElem _ _ (by simpa using h)]
  exact List.getElem_set_self _

theorem getD_set_ne {l : List Value} {i j : Nat} {v : Value} (h : i ≠ j) :
    (l.set i v).getD j Value.na = l.getD j Value.na := by
  rcases Nat.lt_or_ge j (l.length) with hj | hj
  · rw [List.getD_eq_getElem _ _ (by simpa using hj),
        List.getD_eq_getElem _ _ hj]
    exact List.getElem_set_ne h _
  · rw [List.getD_eq_default _ _ (by simpa using hj), List.getD_eq_default _ _ hj]

theorem zipWith_set_colVals {j : Nat} :
    ∀ (rows : List (List Value)) (vals : List Value),
      vals.length = rows.length → (∀ r ∈ rows, j < r.length) →
      (List.zipWith (fun r v => r.set j v) rows vals).map
          (fun r => r.getD j Value.na) = vals := by
  intro rows
  induction rows with
  | nil =>
      intro vals hlen _
      cases vals with
      | nil => rfl
      | cons v t => simp at hlen
  | cons r rows' ih =>
      intro vals hlen hj
      cases vals with
      | nil => simp at hlen
      | cons v vals' =>
          simp only [List.zipWith_cons_cons, List.map_cons]
          rw [getD_set_self (hj r (by simp)), ih vals' (by simpa using hlen)
              (fun r' hr' => hj r' (by simp [hr']))]

theorem zipWith_set_colVals_ne {j p : Nat} (hne : p ≠ j) :
    ∀ (rows : List (List Value)) (vals : List Value),
      vals.length = rows.length →
      (List.zipWith (fun r v => r.set j v) rows vals).map
          (fun r => r.getD p Value.na) = rows.map (fun r => r.getD p Value.na) := by
  intro rows
  induction rows with
  | nil => intro vals _; rfl
  | cons r rows' ih =>
      intro vals hlen
      cases vals with
      | nil => simp at hlen
      | cons v vals' =>
          simp only [List.zipWith_cons_cons, List.map_cons]
          rw [getD_set_ne (fun he => hne he.symm), ih vals' (by simpa using hlen)]

theorem setCol_cols_of_mem {d : Dataset} {c : String} {vals : List Value}
    (hc : c ∈ d.cols) : (d.setCol c vals).cols = d.cols := by
  obtain ⟨j, hj⟩ := firstIdx_isSome hc
  simp [Dataset.setCol, hj]

theorem setCol_colVals {d : Dataset} {c : String} {vals : List Value}
    (hc : c ∈ d.cols) (hlen : vals.length = d.rows.length)
    (hrows : ∀ r ∈ d.rows, r.length = d.cols.length) :
    colVals (d.setCol c vals) c = vals := by
  obtain ⟨j, hj⟩ := firstIdx_isSome hc
  have hjlt : j < d.cols.length := (firstIdx_some_getD hj).1
  unfold Dataset.setCol
  rw [hj]
  unfold colVals
  simp only
  have hcell : ∀ r, cellOf d.cols r c = r.getD j Value.na := by
    intro r
    simp [cellOf, hj]
  rw [List.map_congr_left (fun r _ => hcell r)]
  exact zipWith_set_colVals d.rows vals hlen
    (fun r hr => by rw [hrows r hr]; exact hjlt)

theorem setCol_colVals_ne {d : Dataset} {c c' : String} {vals : List Value}
    (hc : c ∈ d.cols) (hne : c' ≠ c) (hlen : vals.length = d.rows.length) :
    colVals (d.setCol c vals) c' = colVals d c' := by
  obtain ⟨j, hj⟩ := firstIdx_isSome hc
  have hjc : d.cols.getD j "" = c := (firstIdx_some_getD hj).2
  unfold Dataset.setCol
  rw [hj]
  unfold colVals
  simp only
  cases hp : firstIdx c' d.cols with
  | none =>
      have hcell : ∀ r, cellOf d.cols r c' = Value.na := by
        intro r
        simp [cellOf, hp]
      rw [List.map_congr_left (fun r _ => hcell r),
          List.map_congr_left (fun (r : List Value) _ => hcell r),
          map_const_na, map_const_na, List.length_zipWith]
      congr 1
      omega
  | some p =>
      have hpc : d.cols.getD p "" = c' := (firstIdx_some_getD hp).2
      have hpj : p ≠ j := fun he => hne (by rw [← hpc, he, hjc])
      have hcell : ∀ r : List Value, cellOf d.cols r c' = r.getD p Value.na := by
        intro r
        simp [cellOf, hp]
      rw [List.map_congr_left (fun r _ => hcell r),
          List.map_congr_left (fun (r : List Value) _ => hcell r)]
      exact zipWith_set_colVals_ne hpj d.rows vals hlen

theorem mapCol_cols (d : Dataset) (c : String) (f : Value → Value) :
    (d.mapCol c f).cols = d.cols := by
  unfold Dataset.mapCol
  cases firstIdx c d.cols <;> rfl

theorem mapCol_colVals_ne {d : Dataset} {c c' : String} {f : Value → Value}
    (hne : c' ≠ c) : colVals (d.mapCol c f) c' = colVals d c' := by
  unfold Dataset.mapCol
  cases hj : firstIdx c d.cols with
  | none => rfl
  | some j =>
      have hjc : d.cols.getD j "" = c := (firstIdx_some_getD hj).2
      unfold colVals
      simp only [List.map_map]
      refine List.map_congr_left (fun r _ => ?_)
      simp only [Function.comp]
      cases hp : firstIdx c' d.cols with
      | none => simp [cellOf, hp]
      | some p =>
          have hpc : d.cols.getD p "" = c' := (firstIdx_some_getD hp).2
          have hpj : p ≠ j := fun he => hne (by rw [← hpc, he, hjc])
          simp only [cellOf, hp]
          exact getD_set_ne (fun he => hpj he.symm)

theorem create_treatment_mem {xs : List Value} {t : Nat}
    (ht : t ∈ create_treatment xs) : t = 0 ∨ t = 1 := by
  unfold create_treatment at ht
  rcases hsm : seriesMedian xs with - | m <;> rw [hsm] at ht
  · obtain ⟨-, -, rfl⟩ := List.mem_map.mp ht
    exact Or.inl rfl
  · obtain ⟨v, -, rfl⟩ := List.mem_map.mp ht
    cases v with
    | num q => by_cases hq : m < q <;> simp [hq]
    | str s => exact Or.inl rfl
    | na => exact Or.inl rfl

theorem create_treatment_length (xs : List Value) :
    (create_treatment xs).length = xs.length := by
  unfold create_treatment
  cases seriesMedian xs <;> simp

/-- C10: in the orchestrator, the binary treatment is stored back under the
hour column's own name (the column set is unchanged, no separate treatment
column appears, and the hour column now holds exactly `create_treatment`'s
output); between the treatment build and the encoder only the hour and cost
columns change value; and `split` stratifies on the overwritten hour column,
so every row of the final train/valid/test datasets carries a binary 0/1
hour value in place of the original working hours. -/
theorem pipeline_frame (df : Dataset) (cfg : FeatureCfg) (F E tr va te : Dataset)
    (hF : select_features df cfg = .ok F)
    (hE : encode (flipCost (applyTreatment F cfg) cfg) cfg.categorical_cols = .ok E)
    (hS : split E cfg.hour_col = .ok (tr, va, te))
    (hhc : cfg.cost_col ≠ cfg.hour_col)
    (hcat : cfg.hour_col ∉ cfg.categorical_cols) :
    pipeline df cfg = .ok (tr, va, te)
    ∧ (applyTreatment F cfg).cols = F.cols
    ∧ colVals (applyTreatment F cfg) cfg.hour_col
        = (create_treatment (colVals F cfg.hour_col)).map natVal
    ∧ (∀ c', c' ≠ cfg.hour_col → c' ≠ cfg.cost_col →
        colVals (flipCost (applyTreatment F cfg) cfg) c' = colVals F c')
    ∧ (∀ r, (r ∈ tr.rows ∨ r ∈ va.rows ∨ r ∈ te.rows) →
        cellOf E.cols r cfg.hour_col = Value.num 0
        ∨ cellOf E.cols r cfg.hour_col = Value.num 1) := by
  obtain ⟨-, -, -, -, hFeq⟩ := select_features_ok_inv hF
  have hhour : cfg.hour_col ∈ F.cols := by
    rw [hFeq]
    simp [requiredCols]
  have hrowlen : ∀ r ∈ F.rows, r.length = F.cols.length := by
    rw [hFeq]
    intro r hr
    obtain ⟨r0, -, rfl⟩ := List.mem_map.mp hr
    simp
  have htlen : ((create_treatment (colVals F cfg.hour_col)).map
      natVal).length = F.rows.length := by
    rw [List.length_map, create_treatment_length]
    simp [colVals]
  have hc2 : (applyTreatment F cfg).cols = F.cols := setCol_cols_of_mem hhour
  have hc3 : colVals (applyTreatment F cfg) cfg.hour_col
      = (create_treatment (colVals F cfg.hour_col)).map natVal :=
    setCol_colVals hhour htlen hrowlen
  have hc4 : ∀ c', c' ≠ cfg.hour_col → c' ≠ cfg.cost_col →
      colVals (flipCost (applyTreatment F cfg) cfg) c' = colVals F c' := by
    intro c' h1 h2
    exact (mapCol_colVals_ne h2).trans (setCol_colVals_ne hhour h1 htlen)
  obtain ⟨-, hEeq⟩ := encode_ok_inv hE
  have hcostedcols : (flipCost (applyTreatment F cfg) cfg).cols = F.cols := by
    unfold flipCost
    rw [mapCol_cols, hc2]
  have hhourcosted : cfg.hour_col ∈ (flipCost (applyTreatment F cfg) cfg).cols := by
    rw [hcostedcols]
    exact hhour
  have hkeep : cfg.hour_col
      ∈ keepCols (flipCost (applyTreatment F cfg) cfg) cfg.categorical_cols := by
    unfold keepCols
    exact List.mem_filter.mpr ⟨hhourcosted, by simpa using hcat⟩
  have hcostedhour : colVals (flipCost (applyTreatment F cfg) cfg) cfg.hour_col
      = (create_treatment (colVals F cfg.hour_col)).map natVal :=
    (mapCol_colVals_ne (fun he => hhc he.symm)).trans hc3
  have hbin : ∀ x ∈ colVals (flipCost (applyTreatment F cfg) cfg) cfg.hour_col,
      x = Value.num 0 ∨ x = Value.num 1 := by
    rw [hcostedhour]
    intro x hx
    obtain ⟨t, htmem, rfl⟩ := List.mem_map.mp hx
    rcases create_treatment_mem htmem with h | h <;> rw [h] <;> simp [natVal]
  have hEbin : ∀ r ∈ E.rows, cellOf E.cols r cfg.hour_col = Value.num 0
      ∨ cellOf E.cols r cfg.hour_col = Value.num 1 := by
    rw [hEeq]
    intro r hr
    obtain ⟨rc, hrc, rfl⟩ := List.mem_map.mp hr
    rw [encodeRow_cell_keep _ _ _ hkeep]
    exact hbin _ (List.mem_map.mpr ⟨rc, hrc, rfl⟩)
  have hsplit := split_spec E cfg.hour_col tr va te hS
  have hmem : ∀ r, (r ∈ tr.rows ∨ r ∈ va.rows ∨ r ∈ te.rows) → r ∈ E.rows := by
    intro r hr
    refine hsplit.1.mem_iff.mp ?_
    rcases hr with h | h | h
    · exact List.mem_append.mpr (Or.inl h)
    · exact List.mem_append.mpr (Or.inr (List.mem_append.mpr (Or.inl h)))
    · exact List.mem_append.mpr (Or.inr (List.mem_append.mpr (Or.inr h)))
  have hc1 : pipeline df cfg = .ok (tr, va, te) := by
    unfold pipeline
    rw [hF]
    simp only
    rw [hE]
    simp only
    exact hS
  exact ⟨hc1, hc2, hc3, hc4, fun r hr => hEbin r (hmem r hr)⟩

/-- Witness for C10 on the concrete ten-row pipeline run. -/
theorem pipeline_frame_witness :
    select_features dfW cfgA = .ok FW
    ∧ encode (flipCost (applyTreatment FW cfgA) cfgA) cfgA.categorical_cols = .ok EW
    ∧ split EW cfgA.hour_col = .ok (TRW, VAW, TEW)
    ∧ cfgA.cost_col ≠ cfgA.hour_col
    ∧ cfgA.hour_col ∉ cfgA.categorical_cols
    ∧ pipeline dfW cfgA = .ok (TRW, VAW, TEW) :=
  ⟨by decide, by decide, by decide, by decide, by decide,
   (pipeline_frame dfW cfgA FW EW TRW VAW TEW (by decide) (by decide) (by decide)
     (by decide) (by decide)).1⟩

